import Mathlib

/-!
A verification development for a small Kalah (Mancala) engine together with
its alpha-beta game-tree search.

The game state is a fixed-length board of stone counts:
indices `0 .. p-1` are player 0's pits, index `p` is player 0's house,
indices `p+1 .. 2p` are player 1's pits, and index `2p+1` is player 1's house.

The original engine mutates a Python list in place; here every operation is a
pure function from states to states.  A move that the engine rejects with an
exception is modelled by an `Option` result (`none` = the `InvalidMove` /
`NotTerminal` error), so an erroneous call produces no successor state at all.
-/

/-- Game state.  The source object also stores `player0_house`, `player1_house`
and `size`, but those are always the values derived from `pits` below (the
constructor sets them that way and `clone_state` copies them verbatim), so we
keep only the three independent fields. -/
structure Mancala where
  pits : Nat
  board : List Nat
  current_player : Nat
deriving DecidableEq, Repr

/-- Index of player 0's house (store): `pits_per_player`. -/
def Mancala.player0_house (g : Mancala) : Nat := g.pits

/-- Index of player 1's house (store): `2 * pits_per_player + 1`. -/
def Mancala.player1_house (g : Mancala) : Nat := 2 * g.pits + 1

/-- Board length: `2 * pits_per_player + 2`. -/
def Mancala.size (g : Mancala) : Nat := 2 * g.pits + 2

/-- `Mancala.__init__`: each pit starts with `stones_per_pit` stones and both
houses start empty; player 0 moves first. -/
def newGame (stones_per_pit pits_per_player : Nat) : Mancala :=
  { pits := pits_per_player
    board := List.replicate pits_per_player stones_per_pit ++ [0]
               ++ List.replicate pits_per_player stones_per_pit ++ [0]
    current_player := 0 }

/-- `Mancala.legal_moves`: the current player's pit indices holding at least
one stone, in ascending order.  (For player 1 the Python range
`range(player0_house + 1, player1_house)` has exactly `pits` elements,
namely `player0_house + 1 + k` for `k < pits`.) -/
def legal_moves (g : Mancala) : List Nat :=
  if g.current_player = 0 then
    (List.range g.player0_house).filter (fun i => 0 < g.board.getD i 0)
  else
    ((List.range g.pits).map (fun k => g.player0_house + 1 + k)).filter
      (fun i => 0 < g.board.getD i 0)

/-- One step of the sowing cursor: advance by one (mod board size), and if that
lands on the skipped house advance once more.  This matches the `continue` in
the source's sowing loop: the skipped house consumes no stone. -/
def nextIdx (size skip idx : Nat) : Nat :=
  if (idx + 1) % size = skip then (idx + 2) % size else (idx + 1) % size

/-- Drop one stone into pit `j`. -/
def bump (b : List Nat) (j : Nat) : List Nat := b.set j (b.getD j 0 + 1)

/-- The sowing loop: place `n` stones one by one, skipping index `skip`,
returning the final board and the index where the last stone landed. -/
def sow : List Nat → Nat → Nat → Nat → Nat → List Nat × Nat
  | b, _, _, 0, idx => (b, idx)
  | b, size, skip, n + 1, idx =>
    sow (bump b (nextIdx size skip idx)) size skip n (nextIdx size skip idx)

/-- The house skipped while sowing: the opponent's house.  A current player
other than 0 or 1 skips nothing in the source; `g.size` is never hit by the
cursor (which stays `< size`), giving the same behaviour. -/
def skipIdx (g : Mancala) : Nat :=
  if g.current_player = 0 then g.player1_house
  else if g.current_player = 1 then g.player0_house
  else g.size

/-- Lines 49-61 of `make_move`: empty the chosen pit and sow its stones. -/
def sowStage (g : Mancala) (pit : Nat) : List Nat × Nat :=
  sow (g.board.set pit 0) g.size (skipIdx g) (g.board.getD pit 0) pit

/-- The last stone landed exactly in the mover's own house. -/
def extraTurn (g : Mancala) (idx : Nat) : Bool :=
  (g.current_player == 0 && idx == g.player0_house)
    || (g.current_player == 1 && idx == g.player1_house)

/-- The capture rule of `make_move` (lines 74-88): if the last stone landed in
one of the mover's own pits and that pit now holds exactly one stone, and the
opposite pit (`player1_house - 1 - idx`) is non-empty, move both pits'
contents into the mover's house.  (`idx + 1 ≤ player0_house` renders Python's
`0 <= idx <= player0_house - 1` without natural-number underflow.) -/
def captureStage (g : Mancala) (b1 : List Nat) (idx : Nat) : List Nat :=
  if g.current_player = 0 ∧ idx + 1 ≤ g.player0_house ∧ b1.getD idx 0 = 1 then
    if 0 < b1.getD (g.player1_house - 1 - idx) 0 then
      ((b1.set g.player0_house
          (b1.getD g.player0_house 0 + b1.getD (g.player1_house - 1 - idx) 0 + 1)).set
        idx 0).set (g.player1_house - 1 - idx) 0
    else b1
  else if g.current_player = 1 ∧ g.player0_house + 1 ≤ idx
      ∧ idx + 1 ≤ g.player1_house ∧ b1.getD idx 0 = 1 then
    if 0 < b1.getD (g.player1_house - 1 - idx) 0 then
      ((b1.set g.player1_house
          (b1.getD g.player1_house 0 + b1.getD (g.player1_house - 1 - idx) 0 + 1)).set
        idx 0).set (g.player1_house - 1 - idx) 0
    else b1
  else b1

/-- `sum(board[i] for i in range(lo, lo + n))`. -/
def sumRange (b : List Nat) (lo n : Nat) : Nat :=
  Finset.sum (Finset.range n) (fun i => b.getD (lo + i) 0)

/-- `all(board[i] == 0 for i in range(lo, lo + n))`. -/
def allZeroRange (b : List Nat) (lo n : Nat) : Bool :=
  (List.range n).all (fun i => b.getD (lo + i) 0 == 0)

/-- `for i in range(lo, lo + n): board[i] = 0`. -/
def zeroRange : List Nat → Nat → Nat → List Nat
  | b, _, 0 => b
  | b, lo, n + 1 => zeroRange (b.set lo 0) (lo + 1) n

/-- Player 0's side holds no stones (`side1_empty` in the source). -/
def side1_empty (g : Mancala) : Bool := allZeroRange g.board 0 g.player0_house

/-- Player 1's side holds no stones (`side2_empty` in the source); the range
`range(player0_house + 1, player1_house)` has `pits` elements. -/
def side2_empty (g : Mancala) : Bool :=
  allZeroRange g.board (g.player0_house + 1) g.pits

/-- The terminal sweep of `check_game_over`: credit each house with the sum of
its side's pits (the second sum is read from the board after the first house
update, exactly as the source does) and then zero both sides' pits. -/
def sweep (g : Mancala) : Mancala :=
  let b1 := g.board.set g.player0_house
      (g.board.getD g.player0_house 0 + sumRange g.board 0 g.player0_house)
  let b2 := b1.set g.player1_house
      (b1.getD g.player1_house 0 + sumRange b1 (g.player0_house + 1) g.pits)
  let b3 := zeroRange b2 0 g.player0_house
  let b4 := zeroRange b3 (g.player0_house + 1) g.pits
  { g with board := b4 }

/-- `Mancala.check_game_over`: if either side is empty, sweep all remaining
stones into the houses and report `true`; otherwise leave the state alone. -/
def check_game_over (g : Mancala) : Bool × Mancala :=
  if side1_empty g || side2_empty g then (true, sweep g) else (false, g)

/-- The state reached after sowing and the extra-turn / capture resolution,
but before the terminal check: on an extra turn the board is the sown board
and the player keeps the move, otherwise the capture rule is applied and the
turn passes. -/
def moveResult (g : Mancala) (pit : Nat) : Mancala :=
  { pits := g.pits
    board := if extraTurn g (sowStage g pit).2 then (sowStage g pit).1
             else captureStage g (sowStage g pit).1 (sowStage g pit).2
    current_player := if extraTurn g (sowStage g pit).2 then g.current_player
                      else 1 - g.current_player }

/-- `Mancala.make_move`: `none` models the `InvalidMove` exception (raised
before any mutation).  Otherwise sow, resolve extra turn / capture, flip the
player when no extra turn was granted, and run the terminal check.  The
returned pair is (state after the move, game-over flag). -/
def make_move (g : Mancala) (pit : Nat) : Option (Mancala × Bool) :=
  if pit ∈ legal_moves g then
    some ((check_game_over (moveResult g pit)).2,
          (check_game_over (moveResult g pit)).1)
  else none

/-- `final_p0` in `get_winner`: player 0's house plus remaining own pits. -/
def final_score0 (g : Mancala) : Nat :=
  g.board.getD g.player0_house 0 + sumRange g.board 0 g.player0_house

/-- `final_p1` in `get_winner`: player 1's house plus remaining own pits. -/
def final_score1 (g : Mancala) : Nat :=
  g.board.getD g.player1_house 0 + sumRange g.board (g.player0_house + 1) g.pits

/-- `Mancala.get_winner`: `none` models the `NotTerminal` (`ValueError`)
exception; otherwise `some 0` / `some 1` for a win, `some (-1)` for a draw,
comparing house-plus-own-side totals. -/
def get_winner (g : Mancala) : Option Int :=
  if side1_empty g || side2_empty g then
    if final_score1 g < final_score0 g then some 0
    else if final_score0 g < final_score1 g then some 1
    else some (-1)
  else none

/-! ### Basic lemmas about list update, `sumRange` and `zeroRange` -/

theorem getD_out (b : List Nat) (i : Nat) (h : b.length ≤ i) : b.getD i 0 = 0 := by
  rw [List.getD_eq_getElem?_getD, List.getElem?_eq_none h]
  rfl

theorem getD_set (b : List Nat) (j i v : Nat) :
    (b.set j v).getD i 0 = if j = i ∧ j < b.length then v else b.getD i 0 := by
  by_cases h1 : j = i
  · subst h1
    by_cases h2 : j < b.length
    · simp [List.getD_eq_getElem?_getD, List.getElem?_set, h2]
    · rw [List.set_eq_of_length_le (le_of_not_lt h2)]
      simp [h2]
  · simp [List.getD_eq_getElem?_getD, List.getElem?_set, h1]

theorem sum_set_add (b : List Nat) (j v : Nat) (h : j < b.length) :
    (b.set j v).sum + b.getD j 0 = b.sum + v := by
  induction b generalizing j with
  | nil => simp at h
  | cons x xs ih =>
    cases j with
    | zero => simp [List.set]; omega
    | succ j =>
      have hj : j < xs.length := by simpa using h
      have := ih j hj
      simp only [List.set, List.sum_cons, List.getD_cons_succ]
      omega

theorem set_getD_self (b : List Nat) (j : Nat) : b.set j (b.getD j 0) = b := by
  induction b generalizing j with
  | nil => simp
  | cons x xs ih =>
    cases j with
    | zero => simp [List.set]
    | succ j =>
      show (x :: xs).set (j + 1) ((x :: xs).getD (j + 1) 0) = x :: xs
      rw [List.getD_cons_succ]
      show x :: xs.set j (xs.getD j 0) = x :: xs
      rw [ih j]

theorem set_zero_of_getD_zero (b : List Nat) (j : Nat) (h : b.getD j 0 = 0) :
    b.set j 0 = b := by
  have := set_getD_self b j
  rwa [h] at this

theorem sumRange_set_out (b : List Nat) (j v lo n : Nat) (h : j < lo ∨ lo + n ≤ j) :
    sumRange (b.set j v) lo n = sumRange b lo n := by
  apply Finset.sum_congr rfl
  intro i hi
  have hi' : i < n := Finset.mem_range.mp hi
  rw [getD_set, if_neg]
  intro hc
  omega

theorem sumRange_set_in (b : List Nat) (j v lo n : Nat)
    (h1 : lo ≤ j) (h2 : j < lo + n) (h3 : j < b.length) :
    sumRange (b.set j v) lo n + b.getD j 0 = sumRange b lo n + v := by
  have hmem : j - lo ∈ Finset.range n := by
    rw [Finset.mem_range]; omega
  have he : ∀ i ∈ Finset.range n,
      (b.set j v).getD (lo + i) 0
        = Function.update (fun i => b.getD (lo + i) 0) (j - lo) v i := by
    intro i _
    rw [getD_set, Function.update_apply]
    by_cases hij : i = j - lo
    · rw [if_pos hij, if_pos ⟨by omega, h3⟩]
    · rw [if_neg (by omega), if_neg hij]
  have hupd := Finset.sum_update_of_mem hmem (fun i => b.getD (lo + i) 0) v
  have hback := Finset.add_sum_erase (Finset.range n)
      (fun i => b.getD (lo + i) 0) hmem
  rw [Finset.erase_eq] at hback
  have hj : lo + (j - lo) = j := by omega
  have hback2 : b.getD (lo + (j - lo)) 0
      + ∑ x ∈ Finset.range n \ {j - lo}, b.getD (lo + x) 0
      = ∑ x ∈ Finset.range n, b.getD (lo + x) 0 := hback
  rw [hj] at hback2
  unfold sumRange
  rw [Finset.sum_congr rfl he, hupd]
  omega

theorem sumRange_shift (b : List Nat) (lo n : Nat) :
    sumRange b lo (n + 1) = b.getD lo 0 + sumRange b (lo + 1) n := by
  unfold sumRange
  rw [Finset.sum_range_succ']
  have : ∀ k ∈ Finset.range n, b.getD (lo + (k + 1)) 0 = b.getD (lo + 1 + k) 0 := by
    intro k _
    rw [show lo + (k + 1) = lo + 1 + k by omega]
  rw [Finset.sum_congr rfl this]
  simp only [Nat.add_zero]
  omega

theorem sumRange_split (b : List Nat) (lo m n : Nat) :
    sumRange b lo (m + n) = sumRange b lo m + sumRange b (lo + m) n := by
  unfold sumRange
  rw [Finset.sum_range_add]
  congr 1
  apply Finset.sum_congr rfl
  intro i _
  rw [show lo + (m + i) = lo + m + i by omega]

theorem sum_eq_sumRange (b : List Nat) : b.sum = sumRange b 0 b.length := by
  induction b with
  | nil => simp [sumRange]
  | cons x xs ih =>
    rw [List.sum_cons, List.length_cons, sumRange_shift]
    have : sumRange (x :: xs) (0 + 1) xs.length = sumRange xs 0 xs.length := by
      apply Finset.sum_congr rfl
      intro i _
      rw [show 0 + 1 + i = i + 1 by omega, List.getD_cons_succ]
      rw [show (0 : Nat) + i = i by omega]
    rw [this, ← ih]
    simp

theorem allZeroRange_iff (b : List Nat) (lo n : Nat) :
    allZeroRange b lo n = true ↔ ∀ i, i < n → b.getD (lo + i) 0 = 0 := by
  simp [allZeroRange, List.all_eq_true, List.mem_range]

theorem sumRange_eq_zero_iff (b : List Nat) (lo n : Nat) :
    sumRange b lo n = 0 ↔ ∀ i, i < n → b.getD (lo + i) 0 = 0 := by
  simp [sumRange, Finset.sum_eq_zero_iff, Finset.mem_range]

theorem zeroRange_length : ∀ (n : Nat) (b : List Nat) (lo : Nat),
    (zeroRange b lo n).length = b.length := by
  intro n
  induction n with
  | zero => intro b lo; rfl
  | succ n ih =>
    intro b lo
    show (zeroRange (b.set lo 0) (lo + 1) n).length = b.length
    rw [ih, List.length_set]

theorem zeroRange_getD : ∀ (n : Nat) (b : List Nat) (lo i : Nat),
    (zeroRange b lo n).getD i 0
      = if lo ≤ i ∧ i < lo + n then 0 else b.getD i 0 := by
  intro n
  induction n with
  | zero =>
    intro b lo i
    rw [if_neg (by omega)]
    rfl
  | succ n ih =>
    intro b lo i
    show (zeroRange (b.set lo 0) (lo + 1) n).getD i 0 = _
    rw [ih]
    by_cases h1 : lo + 1 ≤ i ∧ i < lo + 1 + n
    · rw [if_pos h1, if_pos (by omega)]
    · rw [if_neg h1, getD_set]
      by_cases h2 : lo = i ∧ lo < b.length
      · rw [if_pos h2, if_pos (by omega)]
      · rw [if_neg h2]
        by_cases h3 : lo ≤ i ∧ i < lo + (n + 1)
        · have hi : i = lo := by omega
          subst hi
          have hlen : b.length ≤ i := by omega
          rw [if_pos h3, getD_out b i hlen]
        · rw [if_neg h3]

theorem zeroRange_sum : ∀ (n : Nat) (b : List Nat) (lo : Nat),
    (zeroRange b lo n).sum + sumRange b lo n = b.sum := by
  intro n
  induction n with
  | zero => intro b lo; simp [zeroRange, sumRange]
  | succ n ih =>
    intro b lo
    show (zeroRange (b.set lo 0) (lo + 1) n).sum + sumRange b lo (n + 1) = b.sum
    have h1 := ih (b.set lo 0) (lo + 1)
    have h2 : sumRange (b.set lo 0) (lo + 1) n = sumRange b (lo + 1) n :=
      sumRange_set_out b lo 0 (lo + 1) n (Or.inl (by omega))
    rw [sumRange_shift]
    by_cases hl : lo < b.length
    · have h3 := sum_set_add b lo 0 hl
      omega
    · rw [List.set_eq_of_length_le (le_of_not_lt hl)] at h1 h2 ⊢
      have h4 := getD_out b lo (le_of_not_lt hl)
      omega

theorem zeroRange_of_zero : ∀ (n : Nat) (b : List Nat) (lo : Nat),
    (∀ i, i < n → b.getD (lo + i) 0 = 0) → zeroRange b lo n = b := by
  intro n
  induction n with
  | zero => intro b lo _; rfl
  | succ n ih =>
    intro b lo h
    show zeroRange (b.set lo 0) (lo + 1) n = b
    have h0 : b.getD lo 0 = 0 := by
      have := h 0 (by omega)
      rwa [Nat.add_zero] at this
    rw [set_zero_of_getD_zero b lo h0]
    apply ih
    intro i hi
    have := h (i + 1) (by omega)
    rwa [show lo + (i + 1) = lo + 1 + i by omega] at this

/-! ### Pit-stone totals and how each mutation affects them -/

/-- Total stones sitting in the 2p pits (houses excluded). -/
def pitSumB (p : Nat) (b : List Nat) : Nat := sumRange b 0 p + sumRange b (p + 1) p

/-- Total stones in the pits of a game state. -/
def pitSumG (g : Mancala) : Nat := pitSumB g.pits g.board

theorem pitSumB_set_le (p : Nat) (b : List Nat) (j : Nat) :
    pitSumB p (b.set j 0) ≤ pitSumB p b := by
  by_cases hl : j < b.length
  · unfold pitSumB
    by_cases h1 : j < p
    · have := sumRange_set_in b j 0 0 p (by omega) (by omega) hl
      have h2 := sumRange_set_out b j 0 (p + 1) p (by omega)
      omega
    · by_cases h2 : p + 1 ≤ j ∧ j < p + 1 + p
      · have := sumRange_set_in b j 0 (p + 1) p (by omega) (by omega) hl
        have h3 := sumRange_set_out b j 0 0 p (by omega)
        omega
      · have h3 := sumRange_set_out b j 0 0 p (by omega)
        have h4 := sumRange_set_out b j 0 (p + 1) p (by omega)
        omega
  · rw [List.set_eq_of_length_le (le_of_not_lt hl)]

theorem pitSumB_set_house (p : Nat) (b : List Nat) (j v : Nat)
    (h : j = p ∨ j = 2 * p + 1) :
    pitSumB p (b.set j v) = pitSumB p b := by
  unfold pitSumB
  have h1 := sumRange_set_out b j v 0 p (by omega)
  have h2 := sumRange_set_out b j v (p + 1) p (by omega)
  omega

theorem pitSumB_bump_le (p : Nat) (b : List Nat) (j : Nat) :
    pitSumB p (bump b j) ≤ pitSumB p b + 1 := by
  unfold bump
  by_cases hl : j < b.length
  · unfold pitSumB
    by_cases h1 : j < p
    · have := sumRange_set_in b j (b.getD j 0 + 1) 0 p (by omega) (by omega) hl
      have h2 := sumRange_set_out b j (b.getD j 0 + 1) (p + 1) p (by omega)
      omega
    · by_cases h2 : p + 1 ≤ j ∧ j < p + 1 + p
      · have := sumRange_set_in b j (b.getD j 0 + 1) (p + 1) p (by omega) (by omega) hl
        have h3 := sumRange_set_out b j (b.getD j 0 + 1) 0 p (by omega)
        omega
      · have h3 := sumRange_set_out b j (b.getD j 0 + 1) 0 p (by omega)
        have h4 := sumRange_set_out b j (b.getD j 0 + 1) (p + 1) p (by omega)
        omega
  · rw [List.set_eq_of_length_le (le_of_not_lt hl)]
    omega

theorem pitSumB_set_pit (p : Nat) (b : List Nat) (pit : Nat)
    (h : pit < p ∨ (p + 1 ≤ pit ∧ pit < 2 * p + 1)) (hl : pit < b.length) :
    pitSumB p (b.set pit 0) + b.getD pit 0 = pitSumB p b := by
  unfold pitSumB
  rcases h with h | h
  · have := sumRange_set_in b pit 0 0 p (by omega) (by omega) hl
    have h2 := sumRange_set_out b pit 0 (p + 1) p (by omega)
    omega
  · have := sumRange_set_in b pit 0 (p + 1) p (by omega) (by omega) hl
    have h2 := sumRange_set_out b pit 0 0 p (by omega)
    omega

/-! ### Lemmas about the sowing loop -/

theorem nextIdx_lt (size skip idx : Nat) (h : 0 < size) :
    nextIdx size skip idx < size := by
  unfold nextIdx
  split
  · exact Nat.mod_lt _ h
  · exact Nat.mod_lt _ h

theorem nextIdx_ne (size skip idx : Nat) (h : 2 ≤ size) :
    nextIdx size skip idx ≠ skip := by
  unfold nextIdx
  split
  case isTrue h1 =>
    intro hc
    have hmod : (idx + 1) ≡ (idx + 2) [MOD size] := by
      unfold Nat.ModEq
      rw [h1, hc]
    have hdvd := (Nat.modEq_iff_dvd' (by omega)).mp hmod
    rw [show idx + 2 - (idx + 1) = 1 by omega] at hdvd
    have := Nat.le_of_dvd (by omega) hdvd
    omega
  case isFalse h1 => exact h1

theorem sow_length (size skip : Nat) : ∀ (n : Nat) (b : List Nat) (idx : Nat),
    (sow b size skip n idx).1.length = b.length := by
  intro n
  induction n with
  | zero => intro b idx; rfl
  | succ n ih =>
    intro b idx
    show (sow (bump b (nextIdx size skip idx)) size skip n _).1.length = b.length
    rw [ih]
    unfold bump
    rw [List.length_set]

theorem sow_sum (size skip : Nat) (h0 : 0 < size) :
    ∀ (n : Nat) (b : List Nat) (idx : Nat), size ≤ b.length →
      (sow b size skip n idx).1.sum = b.sum + n := by
  intro n
  induction n with
  | zero => intro b idx _; rfl
  | succ n ih =>
    intro b idx hlen
    show (sow (bump b (nextIdx size skip idx)) size skip n _).1.sum = b.sum + (n + 1)
    have hj : nextIdx size skip idx < b.length := lt_of_lt_of_le (nextIdx_lt size skip idx h0) hlen
    have hb : (bump b (nextIdx size skip idx)).sum = b.sum + 1 := by
      unfold bump
      have := sum_set_add b (nextIdx size skip idx) (b.getD (nextIdx size skip idx) 0 + 1) hj
      omega
    have hblen : size ≤ (bump b (nextIdx size skip idx)).length := by
      unfold bump
      rw [List.length_set]
      exact hlen
    rw [ih _ _ hblen, hb]
    omega

theorem sow_land_lt (size skip : Nat) (h0 : 0 < size) :
    ∀ (n : Nat) (b : List Nat) (idx : Nat), (sow b size skip (n + 1) idx).2 < size := by
  intro n
  induction n with
  | zero =>
    intro b idx
    exact nextIdx_lt size skip idx h0
  | succ n ih =>
    intro b idx
    exact ih _ _

theorem sow_skip (size skip : Nat) (h2 : 2 ≤ size) :
    ∀ (n : Nat) (b : List Nat) (idx : Nat),
      (sow b size skip n idx).1.getD skip 0 = b.getD skip 0 := by
  intro n
  induction n with
  | zero => intro b idx; rfl
  | succ n ih =>
    intro b idx
    show (sow (bump b (nextIdx size skip idx)) size skip n _).1.getD skip 0 = _
    rw [ih]
    unfold bump
    rw [getD_set, if_neg]
    intro hc
    exact nextIdx_ne size skip idx h2 hc.1

theorem sow_pitSum_le (p size skip : Nat) :
    ∀ (n : Nat) (b : List Nat) (idx : Nat),
      pitSumB p (sow b size skip n idx).1 ≤ pitSumB p b + n := by
  intro n
  induction n with
  | zero => intro b idx; exact Nat.le_refl _
  | succ n ih =>
    intro b idx
    have h1 := ih (bump b (nextIdx size skip idx)) (nextIdx size skip idx)
    have h2 := pitSumB_bump_le p b (nextIdx size skip idx)
    show pitSumB p (sow (bump b (nextIdx size skip idx)) size skip n _).1 ≤ _
    omega

theorem sow_pitSum_house (p size skip : Nat) :
    ∀ (n : Nat) (b : List Nat) (idx : Nat),
      ((sow b size skip (n + 1) idx).2 = p ∨ (sow b size skip (n + 1) idx).2 = 2 * p + 1) →
      pitSumB p (sow b size skip (n + 1) idx).1 + 1 ≤ pitSumB p b + (n + 1) := by
  intro n
  induction n with
  | zero =>
    intro b idx h
    have : pitSumB p (bump b (nextIdx size skip idx)) = pitSumB p b := by
      unfold bump
      exact pitSumB_set_house p b _ _ h
    show pitSumB p (bump b (nextIdx size skip idx)) + 1 ≤ pitSumB p b + 1
    omega
  | succ n ih =>
    intro b idx h
    have h1 := ih (bump b (nextIdx size skip idx)) (nextIdx size skip idx) h
    have h2 := pitSumB_bump_le p b (nextIdx size skip idx)
    show pitSumB p (sow (bump b (nextIdx size skip idx)) size skip (n + 1)
        (nextIdx size skip idx)).1 + 1 ≤ pitSumB p b + (n + 1 + 1)
    omega

/-! ### Legal moves -/

theorem mem_legal_iff (g : Mancala) (pit : Nat) :
    pit ∈ legal_moves g ↔
      ((g.current_player = 0 ∧ pit < g.pits)
        ∨ (g.current_player ≠ 0 ∧ g.pits + 1 ≤ pit ∧ pit < 2 * g.pits + 1))
      ∧ 0 < g.board.getD pit 0 := by
  unfold legal_moves Mancala.player0_house
  by_cases hcp : g.current_player = 0
  · rw [if_pos hcp]
    simp only [List.mem_filter, List.mem_range, decide_eq_true_eq]
    constructor
    · rintro ⟨h1, h2⟩
      exact ⟨Or.inl ⟨hcp, h1⟩, h2⟩
    · rintro ⟨h1, h2⟩
      rcases h1 with ⟨_, h1⟩ | ⟨hne, _⟩
      · exact ⟨h1, h2⟩
      · exact absurd hcp hne
  · rw [if_neg hcp]
    simp only [List.mem_filter, List.mem_map, List.mem_range, decide_eq_true_eq]
    constructor
    · rintro ⟨⟨k, hk, rfl⟩, h2⟩
      exact ⟨Or.inr ⟨hcp, by omega, by omega⟩, h2⟩
    · rintro ⟨h1, h2⟩
      rcases h1 with ⟨hc0, _⟩ | ⟨_, hk1, hk2⟩
      · exact absurd hc0 hcp
      · exact ⟨⟨pit - (g.pits + 1), by omega, by omega⟩, h2⟩

theorem legal_pos (g : Mancala) (pit : Nat) (h : pit ∈ legal_moves g) :
    0 < g.board.getD pit 0 :=
  ((mem_legal_iff g pit).mp h).2

theorem legal_lt_length (g : Mancala) (pit : Nat) (h : pit ∈ legal_moves g) :
    pit < g.board.length := by
  have hpos := legal_pos g pit h
  by_contra hc
  rw [getD_out g.board pit (le_of_not_lt hc)] at hpos
  omega

theorem legal_window (g : Mancala) (pit : Nat) (h : pit ∈ legal_moves g) :
    pit < g.pits ∨ (g.pits + 1 ≤ pit ∧ pit < 2 * g.pits + 1) := by
  rcases ((mem_legal_iff g pit).mp h).1 with ⟨_, h1⟩ | ⟨_, h1, h2⟩
  · exact Or.inl h1
  · exact Or.inr ⟨h1, h2⟩

theorem make_move_isSome (g : Mancala) (pit : Nat) (h : pit ∈ legal_moves g) :
    (make_move g pit).isSome = true := by
  unfold make_move
  rw [if_pos h]
  rfl

theorem make_move_eq_none (g : Mancala) (pit : Nat) (h : pit ∉ legal_moves g) :
    make_move g pit = none := by
  unfold make_move
  rw [if_neg h]

theorem make_move_some (g : Mancala) (pit : Nat) (h : pit ∈ legal_moves g) :
    make_move g pit
      = some ((check_game_over (moveResult g pit)).2,
              (check_game_over (moveResult g pit)).1) := by
  unfold make_move
  rw [if_pos h]

/-! ### The terminal sweep -/

theorem sweep_pits_cp (x : Mancala) :
    (sweep x).pits = x.pits ∧ (sweep x).current_player = x.current_player :=
  ⟨rfl, rfl⟩

theorem check_pits_cp (x : Mancala) :
    (check_game_over x).2.pits = x.pits
      ∧ (check_game_over x).2.current_player = x.current_player := by
  unfold check_game_over
  split
  · exact ⟨rfl, rfl⟩
  · exact ⟨rfl, rfl⟩

theorem sumRange_zeroRange_out (b : List Nat) (zlo zn lo n : Nat)
    (h : zlo + zn ≤ lo ∨ lo + n ≤ zlo) :
    sumRange (zeroRange b zlo zn) lo n = sumRange b lo n := by
  apply Finset.sum_congr rfl
  intro i hi
  have hi' : i < n := Finset.mem_range.mp hi
  rw [zeroRange_getD, if_neg]
  intro hc
  omega

theorem sweep_pit_getD (x : Mancala) (i : Nat)
    (h : i < x.pits ∨ (x.pits + 1 ≤ i ∧ i < 2 * x.pits + 1)) :
    (sweep x).board.getD i 0 = 0 := by
  unfold sweep Mancala.player0_house Mancala.player1_house
  rcases h with h | h
  · rw [zeroRange_getD, if_neg (by omega), zeroRange_getD, if_pos (by omega)]
  · rw [zeroRange_getD, if_pos (by omega)]

theorem sweep_pitSum (x : Mancala) : pitSumB x.pits (sweep x).board = 0 := by
  unfold pitSumB
  have h1 : sumRange (sweep x).board 0 x.pits = 0 := by
    rw [sumRange_eq_zero_iff]
    intro i hi
    exact sweep_pit_getD x (0 + i) (Or.inl (by omega))
  have h2 : sumRange (sweep x).board (x.pits + 1) x.pits = 0 := by
    rw [sumRange_eq_zero_iff]
    intro i hi
    exact sweep_pit_getD x (x.pits + 1 + i) (Or.inr (by omega))
  omega

theorem check_pitSum_le (x : Mancala) :
    pitSumB x.pits (check_game_over x).2.board ≤ pitSumB x.pits x.board := by
  unfold check_game_over
  split
  · show pitSumB x.pits (sweep x).board ≤ _
    rw [sweep_pitSum]
    omega
  · exact Nat.le_refl _

theorem captureStage_pitSum_le (g : Mancala) (b1 : List Nat) (idx : Nat) :
    pitSumB g.pits (captureStage g b1 idx) ≤ pitSumB g.pits b1 := by
  unfold captureStage
  split
  · split
    · have e1 : pitSumB g.pits (b1.set g.player0_house
          (b1.getD g.player0_house 0 + b1.getD (g.player1_house - 1 - idx) 0 + 1))
          = pitSumB g.pits b1 :=
        pitSumB_set_house g.pits b1 _ _ (Or.inl rfl)
      calc pitSumB g.pits _ ≤ pitSumB g.pits ((b1.set g.player0_house
              (b1.getD g.player0_house 0 + b1.getD (g.player1_house - 1 - idx) 0 + 1)).set
              idx 0) := pitSumB_set_le _ _ _
        _ ≤ pitSumB g.pits (b1.set g.player0_house
              (b1.getD g.player0_house 0 + b1.getD (g.player1_house - 1 - idx) 0 + 1)) :=
            pitSumB_set_le _ _ _
        _ = pitSumB g.pits b1 := e1
    · exact Nat.le_refl _
  · split
    · split
      · have e1 : pitSumB g.pits (b1.set g.player1_house
            (b1.getD g.player1_house 0 + b1.getD (g.player1_house - 1 - idx) 0 + 1))
            = pitSumB g.pits b1 :=
          pitSumB_set_house g.pits b1 _ _ (Or.inr rfl)
        calc pitSumB g.pits _ ≤ pitSumB g.pits ((b1.set g.player1_house
                (b1.getD g.player1_house 0 + b1.getD (g.player1_house - 1 - idx) 0 + 1)).set
                idx 0) := pitSumB_set_le _ _ _
          _ ≤ pitSumB g.pits (b1.set g.player1_house
                (b1.getD g.player1_house 0 + b1.getD (g.player1_house - 1 - idx) 0 + 1)) :=
              pitSumB_set_le _ _ _
          _ = pitSumB g.pits b1 := e1
      · exact Nat.le_refl _
    · exact Nat.le_refl _

/-! ### The move operation can only move stones toward the houses -/

theorem extraTurn_iff (g : Mancala) (idx : Nat) :
    extraTurn g idx = true ↔
      (g.current_player = 0 ∧ idx = g.pits)
        ∨ (g.current_player = 1 ∧ idx = 2 * g.pits + 1) := by
  unfold extraTurn Mancala.player0_house Mancala.player1_house
  simp [Bool.or_eq_true, Bool.and_eq_true, beq_iff_eq]

theorem moveResult_pitSum (g : Mancala) (pit : Nat) (hleg : pit ∈ legal_moves g) :
    pitSumB g.pits (moveResult g pit).board ≤ pitSumG g
      ∧ (extraTurn g (sowStage g pit).2 = true →
          pitSumB g.pits (moveResult g pit).board < pitSumG g) := by
  have hpos := legal_pos g pit hleg
  have hlen := legal_lt_length g pit hleg
  have hwin := legal_window g pit hleg
  have hset := pitSumB_set_pit g.pits g.board pit hwin hlen
  have hG : pitSumG g = pitSumB g.pits g.board := rfl
  have hsow := sow_pitSum_le g.pits g.size (skipIdx g)
      (g.board.getD pit 0) (g.board.set pit 0) pit
  have hsow1 : pitSumB g.pits (sowStage g pit).1 ≤ pitSumG g := by
    have he : (sowStage g pit).1
        = (sow (g.board.set pit 0) g.size (skipIdx g) (g.board.getD pit 0) pit).1 := rfl
    rw [he]
    omega
  constructor
  · unfold moveResult
    dsimp only
    split
    · exact hsow1
    · calc pitSumB g.pits (captureStage g (sowStage g pit).1 (sowStage g pit).2)
          ≤ pitSumB g.pits (sowStage g pit).1 := captureStage_pitSum_le g _ _
        _ ≤ pitSumG g := hsow1
  · intro hex
    have hland : (sowStage g pit).2 = g.pits ∨ (sowStage g pit).2 = 2 * g.pits + 1 := by
      rcases (extraTurn_iff g _).mp hex with ⟨_, h⟩ | ⟨_, h⟩
      · exact Or.inl h
      · exact Or.inr h
    obtain ⟨m, hm⟩ : ∃ m, g.board.getD pit 0 = m + 1 :=
      ⟨g.board.getD pit 0 - 1, by omega⟩
    have hEq : sowStage g pit
        = sow (g.board.set pit 0) g.size (skipIdx g) (m + 1) pit := by
      unfold sowStage
      rw [hm]
    rw [hEq] at hland
    have hh := sow_pitSum_house g.pits g.size (skipIdx g) m
        (g.board.set pit 0) pit hland
    unfold moveResult
    dsimp only
    rw [if_pos hex, hEq]
    rw [hm] at hset
    omega

theorem make_move_pitSum (g : Mancala) (pit : Nat) (g' : Mancala) (over : Bool)
    (h : make_move g pit = some (g', over)) :
    g'.pits = g.pits ∧ pitSumG g' ≤ pitSumG g
      ∧ (g'.current_player = g.current_player → pitSumG g' < pitSumG g) := by
  by_cases hleg : pit ∈ legal_moves g
  · rw [make_move_some g pit hleg] at h
    have h2 := Option.some.inj h
    have hg' : (check_game_over (moveResult g pit)).2 = g' := congrArg Prod.fst h2
    subst hg'
    have hcp := check_pits_cp (moveResult g pit)
    have hle := check_pitSum_le (moveResult g pit)
    have hmr := moveResult_pitSum g pit hleg
    have hMp : (moveResult g pit).pits = g.pits := rfl
    have e1 : pitSumG (check_game_over (moveResult g pit)).2
        = pitSumB g.pits (check_game_over (moveResult g pit)).2.board := by
      unfold pitSumG
      rw [hcp.1, hMp]
    rw [hMp] at hle
    refine ⟨by rw [hcp.1, hMp], by omega, ?_⟩
    intro hcpe
    have hMcp : (moveResult g pit).current_player = g.current_player := by
      rw [← hcp.2, hcpe]
    by_cases hex : extraTurn g (sowStage g pit).2 = true
    · have hstrict := hmr.2 hex
      omega
    · have hflip : (moveResult g pit).current_player = 1 - g.current_player := by
        unfold moveResult
        dsimp only
        rw [if_neg hex]
      rw [hflip] at hMcp
      omega
  · rw [make_move_eq_none g pit hleg] at h
    exact absurd h (by simp)

theorem make_move_measure (g : Mancala) (pit : Nat) (g' : Mancala) (over : Bool)
    (depth : Nat) (h : make_move g pit = some (g', over)) (hd : 0 < depth) :
    (if g'.current_player = g.current_player then depth else depth - 1) + pitSumG g'
      < depth + pitSumG g := by
  have hp := make_move_pitSum g pit g' over h
  split
  case isTrue hcp =>
    have := hp.2.2 hcp
    omega
  case isFalse =>
    have := hp.2.1
    omega

theorem make_move_get_eq (g : Mancala) (mv : Nat)
    (hs : (make_move g mv).isSome = true) :
    make_move g mv = some (((make_move g mv).get hs).1, ((make_move g mv).get hs).2) := by
  rw [Prod.mk.eta, Option.some_get]

theorem make_move_get_measure (g : Mancala) (mv : Nat)
    (hs : (make_move g mv).isSome = true) (depth : Nat) (hd : 0 < depth) :
    (if ((make_move g mv).get hs).1.current_player = g.current_player
        then depth else depth - 1)
      + pitSumG ((make_move g mv).get hs).1 < depth + pitSumG g :=
  make_move_measure g mv _ _ depth (make_move_get_eq g mv hs) hd

/-! ### The search layer -/

/-- Scores and window bounds live in the integers extended with the two
infinities (`-math.inf` / `math.inf` in the source). -/
abbrev ExtInt := WithBot (WithTop Int)

/-- An ordinary integer score viewed as an extended score. -/
def iv (z : Int) : ExtInt := ((z : WithTop Int) : ExtInt)

/-- Python's `int(value)`: the identity on finite values (the source only
ever applies it to finite values; on an infinity Python would raise). -/
def toInt (x : ExtInt) : Int := WithTop.untop' 0 (WithBot.unbot' ⊤ x)

def WIN_SCORE : Int := 999999

def LOSE_SCORE : Int := -999999

def DRAW_SCORE : Int := 0

/-- `evaluate(state, player)`: on a terminal position the win / draw / loss
constants, otherwise ten times the house difference plus the pit difference,
from `player`'s point of view.  (The source's `state.check_game_over()` call
sweeps `state` in place when the game is over; the heuristic branch is only
reached when no sweep happened, and the winner is read from the swept state,
which is what the `(check_game_over g).2` below is.) -/
def evaluate (g : Mancala) (player : Nat) : Int :=
  if (check_game_over g).1 then
    match get_winner (check_game_over g).2 with
    | some w =>
        if w = (player : Int) then WIN_SCORE
        else if w = -1 then DRAW_SCORE
        else LOSE_SCORE
    | none => 0
  else
    let p0_house : Int := (g.board.getD g.player0_house 0 : Int)
    let p1_house : Int := (g.board.getD g.player1_house 0 : Int)
    let house_diff : Int :=
      if player = 0 then p0_house - p1_house else p1_house - p0_house
    let board_p0 : Int := (sumRange g.board 0 g.player0_house : Int)
    let board_p1 : Int := (sumRange g.board (g.player0_house + 1) g.pits : Int)
    let side_diff : Int :=
      if player = 0 then board_p0 - board_p1 else board_p1 - board_p0
    house_diff * 10 + side_diff

mutual

/-- `alpha_beta(state, depth, alpha, beta, maximizing, player)`: minimax with
alpha-beta pruning.  The two loop functions carry proofs that every listed
move is legal and that the depth is positive; both are invariants of the
source code made explicit so that the recursion (which reuses the same depth
on an extra-turn ply) can be proved terminating: every recursive call either
decreases the depth or strictly drains stones from the pits. -/
def alpha_beta (g : Mancala) (depth : Nat) (alpha beta : ExtInt)
    (maximizing : Bool) (player : Nat) : Int :=
  if h0 : depth = 0 || (check_game_over g).1 then evaluate g player
  else if legal_moves g = [] then evaluate g player
  else if maximizing then
    toInt (abMaxLoop (legal_moves g) g depth alpha beta player ⊥
      (fun _ hm => hm)
      (by
        simp only [Bool.or_eq_true, decide_eq_true_eq, not_or] at h0
        exact Nat.pos_of_ne_zero h0.1))
  else
    toInt (abMinLoop (legal_moves g) g depth alpha beta player ⊤
      (fun _ hm => hm)
      (by
        simp only [Bool.or_eq_true, decide_eq_true_eq, not_or] at h0
        exact Nat.pos_of_ne_zero h0.1))
termination_by (depth + pitSumG g, (legal_moves g).length + 1)
decreasing_by
  · exact Prod.Lex.right _ (Nat.lt_succ_self _)
  · exact Prod.Lex.right _ (Nat.lt_succ_self _)

/-- The maximizing `for move in legal` loop of `alpha_beta`, with running
`value` and window; stops early once `alpha >= beta`. -/
def abMaxLoop (moves : List Nat) (g : Mancala) (depth : Nat)
    (alpha beta : ExtInt) (player : Nat) (value : ExtInt)
    (hmv : ∀ m ∈ moves, m ∈ legal_moves g) (hd : 0 < depth) : ExtInt :=
  match moves, hmv with
  | [], _ => value
  | mv :: rest, hmv =>
    let child := ((make_move g mv).get
        (make_move_isSome g mv (hmv mv (List.mem_cons_self mv rest)))).1
    let score := alpha_beta child
        (if child.current_player = g.current_player then depth else depth - 1)
        alpha beta (child.current_player == player) player
    let value2 := if value < iv score then iv score else value
    let alpha2 := if alpha < value2 then value2 else alpha
    if beta ≤ alpha2 then value2
    else abMaxLoop rest g depth alpha2 beta player value2
        (fun m hm => hmv m (List.mem_cons_of_mem mv hm)) hd
termination_by (depth + pitSumG g, moves.length)
decreasing_by
  · exact Prod.Lex.left _ _ (make_move_get_measure g mv _ depth hd)
  · exact Prod.Lex.right _ (Nat.lt_succ_self _)

/-- The minimizing `for move in legal` loop of `alpha_beta`. -/
def abMinLoop (moves : List Nat) (g : Mancala) (depth : Nat)
    (alpha beta : ExtInt) (player : Nat) (value : ExtInt)
    (hmv : ∀ m ∈ moves, m ∈ legal_moves g) (hd : 0 < depth) : ExtInt :=
  match moves, hmv with
  | [], _ => value
  | mv :: rest, hmv =>
    let child := ((make_move g mv).get
        (make_move_isSome g mv (hmv mv (List.mem_cons_self mv rest)))).1
    let score := alpha_beta child
        (if child.current_player = g.current_player then depth else depth - 1)
        alpha beta (child.current_player == player) player
    let value2 := if iv score < value then iv score else value
    let beta2 := if value2 < beta then value2 else beta
    if beta2 ≤ alpha then value2
    else abMinLoop rest g depth alpha beta2 player value2
        (fun m hm => hmv m (List.mem_cons_of_mem mv hm)) hd
termination_by (depth + pitSumG g, moves.length)
decreasing_by
  · exact Prod.Lex.left _ _ (make_move_get_measure g mv _ depth hd)
  · exact Prod.Lex.right _ (Nat.lt_succ_self _)

end

mutual

/-- The same recursion as `alpha_beta` with every piece of alpha-beta cutoff
bookkeeping removed: plain minimax with the identical extra-turn-aware depth
and maximizing rule.  This is the reference function that the pruning search
is proved to agree with on the full window. -/
def minimax (g : Mancala) (depth : Nat) (maximizing : Bool) (player : Nat) : Int :=
  if h0 : depth = 0 || (check_game_over g).1 then evaluate g player
  else if legal_moves g = [] then evaluate g player
  else if maximizing then
    toInt (mmMaxLoop (legal_moves g) g depth player ⊥
      (fun _ hm => hm)
      (by
        simp only [Bool.or_eq_true, decide_eq_true_eq, not_or] at h0
        exact Nat.pos_of_ne_zero h0.1))
  else
    toInt (mmMinLoop (legal_moves g) g depth player ⊤
      (fun _ hm => hm)
      (by
        simp only [Bool.or_eq_true, decide_eq_true_eq, not_or] at h0
        exact Nat.pos_of_ne_zero h0.1))
termination_by (depth + pitSumG g, (legal_moves g).length + 1)
decreasing_by
  · exact Prod.Lex.right _ (Nat.lt_succ_self _)
  · exact Prod.Lex.right _ (Nat.lt_succ_self _)

/-- The maximizing loop of `minimax`: fold the running maximum, no cutoff. -/
def mmMaxLoop (moves : List Nat) (g : Mancala) (depth : Nat) (player : Nat)
    (value : ExtInt) (hmv : ∀ m ∈ moves, m ∈ legal_moves g) (hd : 0 < depth) :
    ExtInt :=
  match moves, hmv with
  | [], _ => value
  | mv :: rest, hmv =>
    let child := ((make_move g mv).get
        (make_move_isSome g mv (hmv mv (List.mem_cons_self mv rest)))).1
    let score := minimax child
        (if child.current_player = g.current_player then depth else depth - 1)
        (child.current_player == player) player
    let value2 := if value < iv score then iv score else value
    mmMaxLoop rest g depth player value2
        (fun m hm => hmv m (List.mem_cons_of_mem mv hm)) hd
termination_by (depth + pitSumG g, moves.length)
decreasing_by
  · exact Prod.Lex.left _ _ (make_move_get_measure g mv _ depth hd)
  · exact Prod.Lex.right _ (Nat.lt_succ_self _)

/-- The minimizing loop of `minimax`. -/
def mmMinLoop (moves : List Nat) (g : Mancala) (depth : Nat) (player : Nat)
    (value : ExtInt) (hmv : ∀ m ∈ moves, m ∈ legal_moves g) (hd : 0 < depth) :
    ExtInt :=
  match moves, hmv with
  | [], _ => value
  | mv :: rest, hmv =>
    let child := ((make_move g mv).get
        (make_move_isSome g mv (hmv mv (List.mem_cons_self mv rest)))).1
    let score := minimax child
        (if child.current_player = g.current_player then depth else depth - 1)
        (child.current_player == player) player
    let value2 := if iv score < value then iv score else value
    mmMinLoop rest g depth player value2
        (fun m hm => hmv m (List.mem_cons_of_mem mv hm)) hd
termination_by (depth + pitSumG g, moves.length)
decreasing_by
  · exact Prod.Lex.left _ _ (make_move_get_measure g mv _ depth hd)
  · exact Prod.Lex.right _ (Nat.lt_succ_self _)

end

/-- The `for move in legal` loop of `choose_best_move`, carrying the running
best move and best score; a later move replaces the incumbent only if its
score is strictly greater. -/
def cbLoop (moves : List Nat) (g : Mancala) (depth : Nat) (player : Nat)
    (best_move : Option Nat) (best_score : ExtInt)
    (hmv : ∀ m ∈ moves, m ∈ legal_moves g) : Option Nat :=
  match moves, hmv with
  | [], _ => best_move
  | mv :: rest, hmv =>
    let child := ((make_move g mv).get
        (make_move_isSome g mv (hmv mv (List.mem_cons_self mv rest)))).1
    let score := alpha_beta child
        (if child.current_player = g.current_player then depth else depth - 1)
        ⊥ ⊤ (child.current_player == player) player
    if best_score < iv score then
      cbLoop rest g depth player (some mv) (iv score)
        (fun m hm => hmv m (List.mem_cons_of_mem mv hm))
    else
      cbLoop rest g depth player best_move best_score
        (fun m hm => hmv m (List.mem_cons_of_mem mv hm))

/-- `choose_best_move(state, depth)`: `none` when there is no legal move,
otherwise a full-window alpha-beta search one ply below the root for each
legal move in ascending order, keeping the first strictly-best one. -/
def choose_best_move (g : Mancala) (depth : Nat) : Option Nat :=
  if legal_moves g = [] then none
  else cbLoop (legal_moves g) g depth g.current_player none ⊥ (fun _ hm => hm)

/-- The search value `choose_best_move` assigns to a root move `m`: the value
of the post-move state searched with the extra-turn-aware depth/maximizing
rule (0 for an illegal move, where the source would have raised). -/
def cbVal (g : Mancala) (depth : Nat) (m : Nat) : Int :=
  match make_move g m with
  | some r =>
    alpha_beta r.1
      (if r.1.current_player = g.current_player then depth else depth - 1)
      ⊥ ⊤ (r.1.current_player == g.current_player) g.current_player
  | none => 0

/-! ### More facts about the sweep and board totals -/

theorem getD_set_ne (b : List Nat) (j i v : Nat) (h : j ≠ i) :
    (b.set j v).getD i 0 = b.getD i 0 := by
  rw [getD_set, if_neg]
  intro hc
  exact h hc.1

theorem getD_set_self (b : List Nat) (i v : Nat) (h : i < b.length) :
    (b.set i v).getD i 0 = v := by
  rw [getD_set, if_pos ⟨rfl, h⟩]

theorem sweep_length (x : Mancala) : (sweep x).board.length = x.board.length := by
  unfold sweep
  rw [zeroRange_length, zeroRange_length, List.length_set, List.length_set]

theorem sweep_house0_getD (x : Mancala) (hlen : x.board.length = 2 * x.pits + 2) :
    (sweep x).board.getD x.pits 0
      = x.board.getD x.pits 0 + sumRange x.board 0 x.pits := by
  unfold sweep Mancala.player0_house Mancala.player1_house
  rw [zeroRange_getD, if_neg (by omega), zeroRange_getD, if_neg (by omega)]
  rw [getD_set_ne _ _ _ _ (by omega)]
  rw [getD_set_self _ _ _ (by omega)]

theorem sweep_house1_getD (x : Mancala) (hlen : x.board.length = 2 * x.pits + 2) :
    (sweep x).board.getD (2 * x.pits + 1) 0
      = x.board.getD (2 * x.pits + 1) 0 + sumRange x.board (x.pits + 1) x.pits := by
  unfold sweep Mancala.player0_house Mancala.player1_house
  rw [zeroRange_getD, if_neg (by omega), zeroRange_getD, if_neg (by omega)]
  rw [getD_set_self _ _ _ (by rw [List.length_set]; omega)]
  rw [getD_set_ne _ _ _ _ (by omega)]
  rw [sumRange_set_out _ _ _ _ _ (Or.inl (by omega))]

theorem board_sum_decomp (b : List Nat) (p : Nat) (hlen : b.length = 2 * p + 2) :
    b.sum = sumRange b 0 p + b.getD p 0 + sumRange b (p + 1) p + b.getD (2 * p + 1) 0 := by
  have h1 : b.sum = sumRange b 0 (2 * p + 2) := by
    rw [sum_eq_sumRange, hlen]
  have h2 : sumRange b 0 (2 * p + 2) = sumRange b 0 p + sumRange b p (p + 2) := by
    have := sumRange_split b 0 p (p + 2)
    rw [show p + (p + 2) = 2 * p + 2 by omega] at this
    rw [show (0 : Nat) + p = p by omega] at this
    exact this
  have h3 : sumRange b p (p + 2) = b.getD p 0 + sumRange b (p + 1) (p + 1) := by
    have := sumRange_shift b p (p + 1)
    rw [show p + 1 + 1 = p + 2 by omega] at this
    exact this
  have h4 : sumRange b (p + 1) (p + 1) = sumRange b (p + 1) p + sumRange b (2 * p + 1) 1 := by
    have := sumRange_split b (p + 1) p 1
    rw [show p + 1 + p = 2 * p + 1 by omega] at this
    exact this
  have h5 : sumRange b (2 * p + 1) 1 = b.getD (2 * p + 1) 0 := by
    have h := sumRange_shift b (2 * p + 1) 0
    have h0 : sumRange b (2 * p + 1 + 1) 0 = 0 := rfl
    rw [h0] at h
    simpa using h
  omega

theorem sweep_pitSum_parts (x : Mancala) :
    sumRange (sweep x).board 0 x.pits = 0
      ∧ sumRange (sweep x).board (x.pits + 1) x.pits = 0 := by
  constructor
  · rw [sumRange_eq_zero_iff]
    intro i hi
    exact sweep_pit_getD x (0 + i) (Or.inl (by omega))
  · rw [sumRange_eq_zero_iff]
    intro i hi
    exact sweep_pit_getD x (x.pits + 1 + i) (Or.inr (by omega))

theorem sweep_sum (x : Mancala) (hlen : x.board.length = 2 * x.pits + 2) :
    (sweep x).board.sum = x.board.sum := by
  have hlen2 : (sweep x).board.length = 2 * x.pits + 2 := by
    rw [sweep_length]; exact hlen
  have d1 := board_sum_decomp (sweep x).board x.pits hlen2
  have d2 := board_sum_decomp x.board x.pits hlen
  have z := sweep_pitSum_parts x
  have h0 := sweep_house0_getD x hlen
  have h1 := sweep_house1_getD x hlen
  omega

theorem sweep_id_of_empty (y : Mancala)
    (h : ∀ i, (i < y.pits ∨ (y.pits + 1 ≤ i ∧ i < 2 * y.pits + 1)) →
      y.board.getD i 0 = 0) :
    sweep y = y := by
  unfold sweep Mancala.player0_house Mancala.player1_house
  have hS0 : sumRange y.board 0 y.pits = 0 :=
    (sumRange_eq_zero_iff _ _ _).mpr (fun i hi => h (0 + i) (Or.inl (by omega)))
  rw [hS0]
  simp only [Nat.add_zero]
  rw [set_getD_self]
  have hS1 : sumRange y.board (y.pits + 1) y.pits = 0 :=
    (sumRange_eq_zero_iff _ _ _).mpr (fun i hi => h (y.pits + 1 + i) (Or.inr (by omega)))
  rw [hS1]
  simp only [Nat.add_zero]
  rw [set_getD_self]
  rw [zeroRange_of_zero _ _ _ (fun i hi => h (0 + i) (Or.inl (by omega)))]
  rw [zeroRange_of_zero _ _ _ (fun i hi => h (y.pits + 1 + i) (Or.inr (by omega)))]

theorem side1_empty_sweep (x : Mancala) : side1_empty (sweep x) = true := by
  unfold side1_empty Mancala.player0_house
  rw [allZeroRange_iff]
  intro i hi
  have hp : (sweep x).pits = x.pits := rfl
  rw [hp] at hi
  exact sweep_pit_getD x (0 + i) (Or.inl (by omega))

theorem side2_empty_sweep (x : Mancala) : side2_empty (sweep x) = true := by
  unfold side2_empty Mancala.player0_house
  rw [allZeroRange_iff]
  intro i hi
  have hp : (sweep x).pits = x.pits := rfl
  rw [hp] at hi
  exact sweep_pit_getD x (x.pits + 1 + i) (Or.inr (by omega))

/-! ### Bridging facts about the terminal check -/

theorem side1_empty_iff (g : Mancala) :
    side1_empty g = true ↔ sumRange g.board 0 g.pits = 0 := by
  unfold side1_empty Mancala.player0_house
  rw [allZeroRange_iff]
  exact (sumRange_eq_zero_iff _ _ _).symm

theorem side2_empty_iff (g : Mancala) :
    side2_empty g = true ↔ sumRange g.board (g.pits + 1) g.pits = 0 := by
  unfold side2_empty Mancala.player0_house
  rw [allZeroRange_iff]
  exact (sumRange_eq_zero_iff _ _ _).symm

theorem check_fst (g : Mancala) :
    (check_game_over g).1 = (side1_empty g || side2_empty g) := by
  unfold check_game_over
  split
  case isTrue h => exact h.symm
  case isFalse h =>
    rw [Bool.not_eq_true] at h
    exact h.symm

theorem check_snd_true (g : Mancala) (h : (side1_empty g || side2_empty g) = true) :
    (check_game_over g).2 = sweep g := by
  unfold check_game_over
  rw [if_pos h]

theorem check_snd_false (g : Mancala) (h : ¬(side1_empty g || side2_empty g) = true) :
    (check_game_over g).2 = g := by
  unfold check_game_over
  rw [if_neg h]

theorem terminal_iff (g : Mancala) :
    (side1_empty g || side2_empty g) = true ↔
      sumRange g.board 0 g.pits = 0 ∨ sumRange g.board (g.pits + 1) g.pits = 0 := by
  rw [Bool.or_eq_true, side1_empty_iff, side2_empty_iff]

theorem final_score_sweep (x : Mancala) (hlen : x.board.length = 2 * x.pits + 2) :
    final_score0 (sweep x) = final_score0 x ∧ final_score1 (sweep x) = final_score1 x := by
  unfold final_score0 final_score1 Mancala.player0_house Mancala.player1_house
  rw [show (sweep x).pits = x.pits from rfl]
  have h0 := sweep_house0_getD x hlen
  have h1 := sweep_house1_getD x hlen
  have hz := sweep_pitSum_parts x
  constructor
  · omega
  · omega

/-! ### Claim theorems: the board engine -/

/-- C1 (counterexample): the claimed post-move board `[4,4,0,5,5,5,1,5,...]`
for `applyMove(2)` on a fresh 6-pit/4-stone game is wrong — the four stones
from pit 2 land on indices 3, 4, 5 and 6 only (index 7 is never reached), so
the board entry at index 7 stays 4. -/
theorem C1_counterexample :
    (make_move (newGame 4 6) 2).map (fun r => r.1.board)
        = some [4, 4, 0, 5, 5, 5, 1, 4, 4, 4, 4, 4, 4, 0]
      ∧ (make_move (newGame 4 6) 2).map (fun r => r.1.board)
        ≠ some [4, 4, 0, 5, 5, 5, 1, 5, 4, 4, 4, 4, 4, 0] := by
  constructor
  · decide
  · decide

/-- C1 (amended): a new 6-pit/4-stone game has board
`[4,4,4,4,4,4,0,4,4,4,4,4,4,0]` and legal moves `[0,1,2,3,4,5]` for player 0;
`applyMove(2)` sows into indices 3, 4, 5 and 6 (player 0's house), producing
`[4,4,0,5,5,5,1,4,4,4,4,4,4,0]`, and `current_player` stays 0 because the
last stone landed exactly in player 0's house (extra turn). -/
theorem C1_scenario :
    (newGame 4 6).board = [4, 4, 4, 4, 4, 4, 0, 4, 4, 4, 4, 4, 4, 0]
      ∧ legal_moves (newGame 4 6) = [0, 1, 2, 3, 4, 5]
      ∧ (make_move (newGame 4 6) 2).map
          (fun r => (r.1.board, r.1.current_player, r.2))
        = some ([4, 4, 0, 5, 5, 5, 1, 4, 4, 4, 4, 4, 4, 0], 0, false) := by
  refine ⟨by decide, by decide, by decide⟩

/-- C2: `make_move` succeeds exactly on the pit indices listed by
`legal_moves`; on any other index it fails with the `InvalidMove` error
(modelled as `none`), producing no successor state — the pre-state `g` is
untouched by construction, matching the source, which raises before mutating
anything. -/
theorem C2_legality (g : Mancala) (pit : Nat) :
    ((make_move g pit).isSome = true ↔ pit ∈ legal_moves g)
      ∧ (make_move g pit = none ↔ pit ∉ legal_moves g) := by
  by_cases h : pit ∈ legal_moves g
  · rw [make_move_some g pit h]
    simp [h]
  · rw [make_move_eq_none g pit h]
    simp [h]

/-- C5: `check_game_over` reports game over exactly when one side's pit range
sums to zero; in that case it sweeps, after which every pit reads 0 and the
whole board total sits in the two houses, the sweep conserves the total, and
calling `check_game_over` again returns true and changes nothing; when
neither side is empty it reports false and leaves the state untouched. -/
theorem C5_check_game_over (g : Mancala) (hlen : g.board.length = 2 * g.pits + 2) :
    ((check_game_over g).1 = true
        ↔ sumRange g.board 0 g.pits = 0 ∨ sumRange g.board (g.pits + 1) g.pits = 0)
      ∧ ((check_game_over g).1 = true →
          (∀ i, (i < g.pits ∨ (g.pits + 1 ≤ i ∧ i < 2 * g.pits + 1)) →
              (check_game_over g).2.board.getD i 0 = 0)
            ∧ (check_game_over g).2.board.sum
                = (check_game_over g).2.board.getD g.pits 0
                  + (check_game_over g).2.board.getD (2 * g.pits + 1) 0
            ∧ (check_game_over g).2.board.sum = g.board.sum
            ∧ check_game_over (check_game_over g).2 = (true, (check_game_over g).2))
      ∧ ((check_game_over g).1 = false → (check_game_over g).2 = g) := by
  refine ⟨?_, ?_, ?_⟩
  · rw [check_fst, terminal_iff]
  · intro h
    have hterm : (side1_empty g || side2_empty g) = true := by
      rw [← check_fst]; exact h
    have hsnd := check_snd_true g hterm
    rw [hsnd]
    have hlen2 : (sweep g).board.length = 2 * g.pits + 2 := by
      rw [sweep_length]; exact hlen
    have hz := sweep_pitSum_parts g
    refine ⟨fun i hi => sweep_pit_getD g i hi, ?_, sweep_sum g hlen, ?_⟩
    · have := board_sum_decomp (sweep g).board g.pits hlen2
      omega
    · have hcond : (side1_empty (sweep g) || side2_empty (sweep g)) = true := by
        rw [side1_empty_sweep]
        rfl
      have hid : sweep (sweep g) = sweep g :=
        sweep_id_of_empty (sweep g) (fun i hi => sweep_pit_getD g i hi)
      unfold check_game_over
      rw [if_pos hcond, hid]
  · intro h
    apply check_snd_false
    rw [← check_fst]
    simp [h]

/-- C6: `get_winner` fails with the `NotTerminal` error (`none`) exactly when
neither side's pit range is empty; on a terminal state it compares
house-plus-own-pits totals (`some 0` / `some 1` for the strictly larger
total, `some (-1)` on a tie), gives the same answer before and after the
terminal sweep, and — being a pure function to an `Option Int` — never
changes the state. -/
theorem C6_get_winner (g : Mancala) (hlen : g.board.length = 2 * g.pits + 2) :
    (get_winner g = none ↔
        ¬(sumRange g.board 0 g.pits = 0 ∨ sumRange g.board (g.pits + 1) g.pits = 0))
      ∧ ((sumRange g.board 0 g.pits = 0 ∨ sumRange g.board (g.pits + 1) g.pits = 0) →
          ((get_winner g = some 0 ↔ final_score1 g < final_score0 g)
            ∧ (get_winner g = some 1 ↔ final_score0 g < final_score1 g)
            ∧ (get_winner g = some (-1) ↔ final_score0 g = final_score1 g)))
      ∧ get_winner (check_game_over g).2 = get_winner g := by
  refine ⟨?_, ?_, ?_⟩
  · by_cases hterm : (side1_empty g || side2_empty g) = true
    · unfold get_winner
      rw [if_pos hterm]
      have hor := (terminal_iff g).mp hterm
      constructor
      · intro hc
        split at hc
        · exact absurd hc (by simp)
        · split at hc
          · exact absurd hc (by simp)
          · exact absurd hc (by simp)
      · intro hc
        exact absurd hor hc
    · unfold get_winner
      rw [if_neg hterm]
      have hor := (terminal_iff g).not.mp hterm
      simp [hor]
  · intro hor
    have hterm : (side1_empty g || side2_empty g) = true := (terminal_iff g).mpr hor
    unfold get_winner
    rw [if_pos hterm]
    rcases lt_trichotomy (final_score0 g) (final_score1 g) with h | h | h
    · rw [if_neg (by omega), if_pos h]
      exact ⟨iff_of_false (by simp) (by omega), iff_of_true rfl h,
        iff_of_false (by simp) (by omega)⟩
    · rw [if_neg (by omega), if_neg (by omega)]
      exact ⟨iff_of_false (by simp) (by omega), iff_of_false (by simp) (by omega),
        iff_of_true rfl h⟩
    · rw [if_pos h]
      exact ⟨iff_of_true rfl h, iff_of_false (by simp) (by omega),
        iff_of_false (by simp) (by omega)⟩
  · by_cases hterm : (side1_empty g || side2_empty g) = true
    · rw [check_snd_true g hterm]
      have hcond : (side1_empty (sweep g) || side2_empty (sweep g)) = true := by
        rw [side1_empty_sweep]
        rfl
      have hf := final_score_sweep g hlen
      unfold get_winner
      rw [if_pos hcond, if_pos hterm, hf.1, hf.2]
    · rw [check_snd_false g hterm]

/-! ### Stone conservation -/

theorem captureStage_sum (g : Mancala) (b1 : List Nat) (idx : Nat)
    (hlen : b1.length = 2 * g.pits + 2) :
    (captureStage g b1 idx).sum = b1.sum
      ∧ (captureStage g b1 idx).length = b1.length := by
  have hph : g.player0_house = g.pits := rfl
  have hp1 : g.player1_house = 2 * g.pits + 1 := rfl
  unfold captureStage
  split
  case isTrue hc =>
    split
    case isTrue hcap =>
      have hidx : idx < g.pits := by omega
      have hH : g.player0_house < b1.length := by omega
      have hopp : g.player1_house - 1 - idx = 2 * g.pits - idx := by omega
      have hoppw : g.pits + 1 ≤ 2 * g.pits - idx ∧ 2 * g.pits - idx < b1.length := by omega
      have e1 := sum_set_add b1 g.player0_house
          (b1.getD g.player0_house 0 + b1.getD (g.player1_house - 1 - idx) 0 + 1) hH
      have e2 := sum_set_add
          (b1.set g.player0_house
            (b1.getD g.player0_house 0 + b1.getD (g.player1_house - 1 - idx) 0 + 1))
          idx 0 (by rw [List.length_set]; omega)
      have e3 := sum_set_add
          ((b1.set g.player0_house
            (b1.getD g.player0_house 0 + b1.getD (g.player1_house - 1 - idx) 0 + 1)).set
            idx 0)
          (g.player1_house - 1 - idx) 0 (by rw [List.length_set, List.length_set]; omega)
      have g1 : (b1.set g.player0_house
            (b1.getD g.player0_house 0 + b1.getD (g.player1_house - 1 - idx) 0 + 1)).getD
          idx 0 = b1.getD idx 0 := getD_set_ne _ _ _ _ (by omega)
      have g2 : ((b1.set g.player0_house
            (b1.getD g.player0_house 0 + b1.getD (g.player1_house - 1 - idx) 0 + 1)).set
            idx 0).getD (g.player1_house - 1 - idx) 0
          = b1.getD (g.player1_house - 1 - idx) 0 := by
        rw [getD_set_ne _ _ _ _ (by omega), getD_set_ne _ _ _ _ (by omega)]
      have hone : b1.getD idx 0 = 1 := hc.2.2
      constructor
      · rw [g1, hone] at e2
        rw [g2] at e3
        omega
      · rw [List.length_set, List.length_set, List.length_set]
    case isFalse => exact ⟨rfl, rfl⟩
  case isFalse =>
    split
    case isTrue hc =>
      split
      case isTrue hcap =>
        have hidx : g.pits + 1 ≤ idx ∧ idx ≤ 2 * g.pits := by omega
        have hH : g.player1_house < b1.length := by omega
        have hopp : g.player1_house - 1 - idx = 2 * g.pits - idx := by omega
        have hoppw : 2 * g.pits - idx < g.pits := by omega
        have e1 := sum_set_add b1 g.player1_house
            (b1.getD g.player1_house 0 + b1.getD (g.player1_house - 1 - idx) 0 + 1) hH
        have e2 := sum_set_add
            (b1.set g.player1_house
              (b1.getD g.player1_house 0 + b1.getD (g.player1_house - 1 - idx) 0 + 1))
            idx 0 (by rw [List.length_set]; omega)
        have e3 := sum_set_add
            ((b1.set g.player1_house
              (b1.getD g.player1_house 0 + b1.getD (g.player1_house - 1 - idx) 0 + 1)).set
              idx 0)
            (g.player1_house - 1 - idx) 0 (by rw [List.length_set, List.length_set]; omega)
        have g1 : (b1.set g.player1_house
              (b1.getD g.player1_house 0 + b1.getD (g.player1_house - 1 - idx) 0 + 1)).getD
            idx 0 = b1.getD idx 0 := getD_set_ne _ _ _ _ (by omega)
        have g2 : ((b1.set g.player1_house
              (b1.getD g.player1_house 0 + b1.getD (g.player1_house - 1 - idx) 0 + 1)).set
              idx 0).getD (g.player1_house - 1 - idx) 0
            = b1.getD (g.player1_house - 1 - idx) 0 := by
          rw [getD_set_ne _ _ _ _ (by omega), getD_set_ne _ _ _ _ (by omega)]
        have hone : b1.getD idx 0 = 1 := hc.2.2.2
        constructor
        · rw [g1, hone] at e2
          rw [g2] at e3
          omega
        · rw [List.length_set, List.length_set, List.length_set]
      case isFalse => exact ⟨rfl, rfl⟩
    case isFalse => exact ⟨rfl, rfl⟩

theorem moveResult_sum (g : Mancala) (pit : Nat) (hleg : pit ∈ legal_moves g)
    (hlen : g.board.length = 2 * g.pits + 2) :
    (moveResult g pit).board.sum = g.board.sum
      ∧ (moveResult g pit).board.length = 2 * g.pits + 2 := by
  have hpos := legal_pos g pit hleg
  have hplen := legal_lt_length g pit hleg
  have hsz : g.size = 2 * g.pits + 2 := rfl
  have h0len : (g.board.set pit 0).length = 2 * g.pits + 2 := by
    rw [List.length_set]; exact hlen
  have e0 := sum_set_add g.board pit 0 hplen
  have e1 : (sowStage g pit).1.sum = (g.board.set pit 0).sum + g.board.getD pit 0 := by
    have := sow_sum g.size (skipIdx g) (by omega) (g.board.getD pit 0)
        (g.board.set pit 0) pit (by omega)
    exact this
  have e2 : (sowStage g pit).1.length = 2 * g.pits + 2 := by
    have := sow_length g.size (skipIdx g) (g.board.getD pit 0) (g.board.set pit 0) pit
    rw [sowStage]
    omega
  have e3 := captureStage_sum g (sowStage g pit).1 (sowStage g pit).2 e2
  unfold moveResult
  dsimp only
  split
  · constructor
    · omega
    · exact e2
  · constructor
    · omega
    · rw [e3.2]; exact e2

theorem check_sum (x : Mancala) (hlen : x.board.length = 2 * x.pits + 2) :
    (check_game_over x).2.board.sum = x.board.sum
      ∧ (check_game_over x).2.board.length = x.board.length := by
  unfold check_game_over
  split
  · exact ⟨sweep_sum x hlen, sweep_length x⟩
  · exact ⟨rfl, rfl⟩

theorem make_move_sum (g : Mancala) (pit : Nat) (g' : Mancala) (over : Bool)
    (hlen : g.board.length = 2 * g.pits + 2)
    (h : make_move g pit = some (g', over)) :
    g'.board.sum = g.board.sum ∧ g'.board.length = 2 * g'.pits + 2
      ∧ g'.pits = g.pits := by
  by_cases hleg : pit ∈ legal_moves g
  · rw [make_move_some g pit hleg] at h
    have h2 := Option.some.inj h
    have hg' : (check_game_over (moveResult g pit)).2 = g' := congrArg Prod.fst h2
    subst hg'
    have hmrs := moveResult_sum g pit hleg hlen
    have hMp : (moveResult g pit).pits = g.pits := rfl
    have hcs := check_sum (moveResult g pit) (by rw [hMp]; exact hmrs.2)
    have hcp := check_pits_cp (moveResult g pit)
    refine ⟨by omega, ?_, by rw [hcp.1, hMp]⟩
    rw [hcp.1, hMp, hcs.2]
    exact hmrs.2
  · rw [make_move_eq_none g pit hleg] at h
    exact absurd h (by simp)

/-- The states reachable from `newGame stones pits` by sequences of legal
moves (each move includes its terminal check/sweep). -/
inductive Reachable (stones pits : Nat) : Mancala → Prop where
  | init : Reachable stones pits (newGame stones pits)
  | step (g g' : Mancala) (pit : Nat) (over : Bool) :
      Reachable stones pits g → make_move g pit = some (g', over) →
      Reachable stones pits g'

/-- C3: along every sequence of legal moves from a new game the total number
of stones on the board stays exactly `2 * pitsPerPlayer * stonesPerPit`;
sowing, capture and the terminal sweep only relocate stones. -/
theorem C3_conservation (stones pits : Nat) (g : Mancala)
    (h : Reachable stones pits g) :
    g.board.sum = 2 * pits * stones
      ∧ g.board.length = 2 * g.pits + 2 ∧ g.pits = pits := by
  induction h with
  | init =>
    refine ⟨?_, ?_, rfl⟩
    · simp [newGame, List.sum_replicate, smul_eq_mul]
      ring
    · simp [newGame]
      ring
  | step g g' pit over _ hmove ih =>
    have hs := make_move_sum g pit g' over ih.2.1 hmove
    exact ⟨by rw [hs.1, ih.1], hs.2.1, by rw [hs.2.2, ih.2.2]⟩

/-! ### Claim theorems: termination measure and frame property -/

/-- C8: the well-foundedness content of the search recursion, exactly the
measure by which `alpha_beta` above is defined as a total function: every
successful move keeps the pit-stone total from rising; a move after which the
same player is to move again (an extra turn, where the search reuses the same
depth) strictly drains stones from the pits into the houses; and on a ply
where the mover changes the recursion charges `depth - 1 < depth`.  Hence the
paired measure `(depth + pit stones)` strictly decreases on every recursive
call, with or without a depth bound on the extra-turn chains. -/
theorem C8_search_terminates (g : Mancala) (pit : Nat) (g' : Mancala)
    (over : Bool) (depth : Nat)
    (h : make_move g pit = some (g', over)) (hd : 0 < depth) :
    pitSumG g' ≤ pitSumG g
      ∧ (g'.current_player = g.current_player → pitSumG g' < pitSumG g)
      ∧ (if g'.current_player = g.current_player then depth else depth - 1)
          + pitSumG g' < depth + pitSumG g := by
  have hp := make_move_pitSum g pit g' over h
  exact ⟨hp.2.1, hp.2.2, make_move_measure g pit g' over depth h hd⟩

/-- C8 witness: the concrete extra-turn move of the opening scenario. -/
theorem C8_search_terminates_witness :
    make_move (newGame 4 6) 2
        = some (Mancala.mk 6 [4, 4, 0, 5, 5, 5, 1, 4, 4, 4, 4, 4, 4, 0] 0, false)
      ∧ (0 : Nat) < 1
      ∧ (pitSumG (Mancala.mk 6 [4, 4, 0, 5, 5, 5, 1, 4, 4, 4, 4, 4, 4, 0] 0)
            ≤ pitSumG (newGame 4 6)
          ∧ ((Mancala.mk 6 [4, 4, 0, 5, 5, 5, 1, 4, 4, 4, 4, 4, 4, 0] 0).current_player
                = (newGame 4 6).current_player →
              pitSumG (Mancala.mk 6 [4, 4, 0, 5, 5, 5, 1, 4, 4, 4, 4, 4, 4, 0] 0)
                < pitSumG (newGame 4 6))
          ∧ (if (Mancala.mk 6 [4, 4, 0, 5, 5, 5, 1, 4, 4, 4, 4, 4, 4, 0] 0).current_player
                = (newGame 4 6).current_player then 1 else 1 - 1)
              + pitSumG (Mancala.mk 6 [4, 4, 0, 5, 5, 5, 1, 4, 4, 4, 4, 4, 4, 0] 0)
              < 1 + pitSumG (newGame 4 6)) :=
  ⟨by decide, by decide,
    C8_search_terminates (newGame 4 6) 2 _ false 1 (by decide) (by decide)⟩

theorem captureStage_getD_opp_house (g : Mancala) (b1 : List Nat) (idx j : Nat)
    (hj : (g.current_player = 0 ∧ j = 2 * g.pits + 1)
      ∨ (g.current_player = 1 ∧ j = g.pits)) :
    (captureStage g b1 idx).getD j 0 = b1.getD j 0 := by
  have hph : g.player0_house = g.pits := rfl
  have hp1 : g.player1_house = 2 * g.pits + 1 := rfl
  unfold captureStage
  split
  case isTrue hc =>
    split
    case isTrue =>
      have hcp0 := hc.1
      have hi := hc.2.1
      have hj' : j = 2 * g.pits + 1 := by
        rcases hj with ⟨_, hj⟩ | ⟨hc1, _⟩
        · exact hj
        · omega
      rw [getD_set_ne _ _ _ _ (by omega), getD_set_ne _ _ _ _ (by omega),
        getD_set_ne _ _ _ _ (by omega)]
    case isFalse => rfl
  case isFalse =>
    split
    case isTrue hc =>
      split
      case isTrue =>
        have hcp1 := hc.1
        have hi1 := hc.2.1
        have hi2 := hc.2.2.1
        have hj' : j = g.pits := by
          rcases hj with ⟨hc0, _⟩ | ⟨_, hj⟩
          · omega
          · exact hj
        rw [getD_set_ne _ _ _ _ (by omega), getD_set_ne _ _ _ _ (by omega),
          getD_set_ne _ _ _ _ (by omega)]
      case isFalse => rfl
    case isFalse => rfl

/-- C10: when a legal move does not end the game, the non-mover's house entry
is exactly unchanged: sowing skips the opponent's house, a capture only
credits the mover's house, and without the terminal sweep nothing else ever
touches the opponent's house. -/
theorem C10_opponent_house_frame (g : Mancala) (pit : Nat) (g' : Mancala)
    (hcp : g.current_player < 2)
    (h : make_move g pit = some (g', false)) :
    g'.board.getD (if g.current_player = 0 then 2 * g.pits + 1 else g.pits) 0
      = g.board.getD (if g.current_player = 0 then 2 * g.pits + 1 else g.pits) 0 := by
  by_cases hleg : pit ∈ legal_moves g
  case neg =>
    rw [make_move_eq_none g pit hleg] at h
    exact absurd h (by simp)
  rw [make_move_some g pit hleg] at h
  have h2 := Option.some.inj h
  have hg' : (check_game_over (moveResult g pit)).2 = g' := congrArg Prod.fst h2
  have hover : (check_game_over (moveResult g pit)).1 = false := congrArg Prod.snd h2
  have hMne : ¬(side1_empty (moveResult g pit) || side2_empty (moveResult g pit)) = true := by
    rw [← check_fst]
    simp [hover]
  have hM2 : (check_game_over (moveResult g pit)).2 = moveResult g pit :=
    check_snd_false _ hMne
  rw [← hg', hM2]
  have hsz : g.size = 2 * g.pits + 2 := rfl
  by_cases h0 : g.current_player = 0
  · rw [if_pos h0]
    have hw : pit < g.pits := by
      rcases ((mem_legal_iff g pit).mp hleg).1 with ⟨_, hw⟩ | ⟨hne, _⟩
      · exact hw
      · exact absurd h0 hne
    have hskip : skipIdx g = 2 * g.pits + 1 := by
      unfold skipIdx
      rw [if_pos h0]
      rfl
    have c1 : (g.board.set pit 0).getD (2 * g.pits + 1) 0
        = g.board.getD (2 * g.pits + 1) 0 := getD_set_ne _ _ _ _ (by omega)
    have c2 : (sowStage g pit).1.getD (2 * g.pits + 1) 0
        = (g.board.set pit 0).getD (2 * g.pits + 1) 0 := by
      unfold sowStage
      rw [← hskip]
      exact sow_skip g.size (skipIdx g) (by omega)
          (g.board.getD pit 0) (g.board.set pit 0) pit
    have c3 := captureStage_getD_opp_house g (sowStage g pit).1 (sowStage g pit).2
        (2 * g.pits + 1) (Or.inl ⟨h0, rfl⟩)
    unfold moveResult
    dsimp only
    split
    · rw [c2, c1]
    · rw [c3, c2, c1]
  · have h1 : g.current_player = 1 := by omega
    rw [if_neg h0]
    have hw : g.pits + 1 ≤ pit := by
      rcases ((mem_legal_iff g pit).mp hleg).1 with ⟨hc0, _⟩ | ⟨_, hw, _⟩
      · exact absurd hc0 h0
      · exact hw
    have hskip : skipIdx g = g.pits := by
      unfold skipIdx
      rw [if_neg h0, if_pos h1]
      rfl
    have c1 : (g.board.set pit 0).getD g.pits 0 = g.board.getD g.pits 0 :=
      getD_set_ne _ _ _ _ (by omega)
    have c2 : (sowStage g pit).1.getD g.pits 0
        = (g.board.set pit 0).getD g.pits 0 := by
      unfold sowStage
      rw [← hskip]
      exact sow_skip g.size (skipIdx g) (by omega)
          (g.board.getD pit 0) (g.board.set pit 0) pit
    have c3 := captureStage_getD_opp_house g (sowStage g pit).1 (sowStage g pit).2
        g.pits (Or.inr ⟨h1, rfl⟩)
    unfold moveResult
    dsimp only
    split
    · rw [c2, c1]
    · rw [c3, c2, c1]

/-- C10 witness: the opening move from pit 0 passes the turn and leaves
player 1's house (index 13) at 0. -/
theorem C10_opponent_house_frame_witness :
    (newGame 4 6).current_player < 2
      ∧ make_move (newGame 4 6) 0
          = some (Mancala.mk 6 [0, 5, 5, 5, 5, 4, 0, 4, 4, 4, 4, 4, 4, 0] 1, false)
      ∧ (Mancala.mk 6 [0, 5, 5, 5, 5, 4, 0, 4, 4, 4, 4, 4, 4, 0] 1).board.getD
            (if (newGame 4 6).current_player = 0 then 2 * (newGame 4 6).pits + 1
              else (newGame 4 6).pits) 0
          = (newGame 4 6).board.getD
            (if (newGame 4 6).current_player = 0 then 2 * (newGame 4 6).pits + 1
              else (newGame 4 6).pits) 0 :=
  ⟨by decide, by decide,
    C10_opponent_house_frame (newGame 4 6) 0 _ (by decide) (by decide)⟩

/-! ### Claim theorems: the capture rule -/

/-- C4 (counterexample): the claim that `applyMove` adds exactly
`opposite + 1` stones to the mover's house on capture fails when the capture
itself ends the game: from `pits = [2,0,0]` vs `[1,0,0]` (all houses empty,
player 0 to move), playing pit 0 lands on the empty own pit 2 (which then
holds 1 stone) with opposite pit 4 holding 1 stone — the claim predicts house
`0 + (1 + 1) = 2`, but the capture empties player 1's side, the terminal
sweep inside `make_move` also collects player 0's remaining pit stone, and
the house ends at 3. -/
theorem C4_counterexample :
    (sowStage (Mancala.mk 3 [2, 0, 0, 0, 1, 0, 0, 0] 0) 0).2 = 2
      ∧ (sowStage (Mancala.mk 3 [2, 0, 0, 0, 1, 0, 0, 0] 0) 0).1.getD 2 0 = 1
      ∧ (Mancala.mk 3 [2, 0, 0, 0, 1, 0, 0, 0] 0).board.getD 4 0 = 1
      ∧ (Mancala.mk 3 [2, 0, 0, 0, 1, 0, 0, 0] 0).board.getD 3 0 = 0
      ∧ (make_move (Mancala.mk 3 [2, 0, 0, 0, 1, 0, 0, 0] 0) 0).map
          (fun r => r.1.board.getD 3 0) = some 3
      ∧ some (3 : Nat) ≠ some (0 + (1 + 1)) := by
  refine ⟨by decide, by decide, by decide, by decide, by decide, by decide⟩

theorem captureStage_spec0 (g : Mancala) (b1 : List Nat) (idx : Nat)
    (hlen : b1.length = 2 * g.pits + 2)
    (h0 : g.current_player = 0) (hw : idx + 1 ≤ g.pits)
    (hone : b1.getD idx 0 = 1) :
    (0 < b1.getD (2 * g.pits - idx) 0 →
        (captureStage g b1 idx).getD g.pits 0
            = b1.getD g.pits 0 + b1.getD (2 * g.pits - idx) 0 + 1
          ∧ (captureStage g b1 idx).getD idx 0 = 0
          ∧ (captureStage g b1 idx).getD (2 * g.pits - idx) 0 = 0)
      ∧ (b1.getD (2 * g.pits - idx) 0 = 0 → captureStage g b1 idx = b1) := by
  have hph : g.player0_house = g.pits := rfl
  have hp1 : g.player1_house = 2 * g.pits + 1 := rfl
  have hoi : g.player1_house - 1 - idx = 2 * g.pits - idx := by omega
  unfold captureStage
  rw [hph, hoi]
  rw [if_pos ⟨h0, hw, hone⟩]
  constructor
  · intro hcpos
    rw [if_pos hcpos]
    refine ⟨?_, ?_, ?_⟩
    · rw [getD_set_ne _ _ _ _ (by omega), getD_set_ne _ _ _ _ (by omega),
        getD_set_self _ _ _ (by omega)]
    · rw [getD_set_ne _ _ _ _ (by omega),
        getD_set_self _ _ _ (by rw [List.length_set]; omega)]
    · rw [getD_set_self _ _ _ (by rw [List.length_set, List.length_set]; omega)]
  · intro hz
    rw [hz, if_neg (by omega)]

theorem captureStage_spec1 (g : Mancala) (b1 : List Nat) (idx : Nat)
    (hlen : b1.length = 2 * g.pits + 2)
    (h1 : g.current_player = 1) (hw1 : g.pits + 1 ≤ idx)
    (hw2 : idx + 1 ≤ 2 * g.pits + 1) (hone : b1.getD idx 0 = 1) :
    (0 < b1.getD (2 * g.pits - idx) 0 →
        (captureStage g b1 idx).getD (2 * g.pits + 1) 0
            = b1.getD (2 * g.pits + 1) 0 + b1.getD (2 * g.pits - idx) 0 + 1
          ∧ (captureStage g b1 idx).getD idx 0 = 0
          ∧ (captureStage g b1 idx).getD (2 * g.pits - idx) 0 = 0)
      ∧ (b1.getD (2 * g.pits - idx) 0 = 0 → captureStage g b1 idx = b1) := by
  have hph : g.player0_house = g.pits := rfl
  have hp1 : g.player1_house = 2 * g.pits + 1 := rfl
  have hoi : g.player1_house - 1 - idx = 2 * g.pits - idx := by omega
  unfold captureStage
  rw [hoi, hph, hp1]
  rw [if_neg (by omega)]
  rw [if_pos ⟨h1, by omega, by omega, hone⟩]
  constructor
  · intro hcpos
    rw [if_pos hcpos]
    refine ⟨?_, ?_, ?_⟩
    · rw [getD_set_ne _ _ _ _ (by omega), getD_set_ne _ _ _ _ (by omega),
        getD_set_self _ _ _ (by omega)]
    · rw [getD_set_ne _ _ _ _ (by omega),
        getD_set_self _ _ _ (by rw [List.length_set]; omega)]
    · rw [getD_set_self _ _ _ (by rw [List.length_set, List.length_set]; omega)]
  · intro hz
    rw [hz, if_neg (by omega)]

/-- C4 (amended): on a legal move that does not end the game, whose last
stone lands in one of the mover's own pits then holding exactly one stone
(landing index `idx`, opposite pit `2p - idx`, i.e.
`player1_house - 1 - idx`): if the opposite pit holds `c > 0` stones after
sowing, the final board carries the mover's house at its *post-sowing* value
plus `c + 1` (sowing laps through the house are accounted separately) and
both the landing pit and the opposite pit read 0; if the opposite pit holds
no stones, the board is exactly the post-sowing board — no capture, the
single stone stays, and no house changes from this rule. -/
theorem C4_capture (g : Mancala) (pit : Nat) (g' : Mancala) (idx c : Nat)
    (hlen : g.board.length = 2 * g.pits + 2)
    (h : make_move g pit = some (g', false))
    (hidx : (sowStage g pit).2 = idx)
    (hown : (g.current_player = 0 ∧ idx + 1 ≤ g.pits)
      ∨ (g.current_player = 1 ∧ g.pits + 1 ≤ idx ∧ idx + 1 ≤ 2 * g.pits + 1))
    (hone : (sowStage g pit).1.getD idx 0 = 1)
    (hc : (sowStage g pit).1.getD (2 * g.pits - idx) 0 = c) :
    (0 < c →
        g'.board.getD (if g.current_player = 0 then g.pits else 2 * g.pits + 1) 0
            = (sowStage g pit).1.getD
                (if g.current_player = 0 then g.pits else 2 * g.pits + 1) 0 + c + 1
          ∧ g'.board.getD idx 0 = 0
          ∧ g'.board.getD (2 * g.pits - idx) 0 = 0)
      ∧ (c = 0 → g'.board = (sowStage g pit).1) := by
  subst hidx
  subst hc
  by_cases hleg : pit ∈ legal_moves g
  case neg =>
    rw [make_move_eq_none g pit hleg] at h
    exact absurd h (by simp)
  rw [make_move_some g pit hleg] at h
  have h2 := Option.some.inj h
  have hg' : (check_game_over (moveResult g pit)).2 = g' := congrArg Prod.fst h2
  have hover : (check_game_over (moveResult g pit)).1 = false := congrArg Prod.snd h2
  have hMne : ¬(side1_empty (moveResult g pit) || side2_empty (moveResult g pit)) = true := by
    rw [← check_fst]
    simp [hover]
  have hM2 : (check_game_over (moveResult g pit)).2 = moveResult g pit :=
    check_snd_false _ hMne
  rw [← hg', hM2]
  have hex : ¬ extraTurn g (sowStage g pit).2 = true := by
    intro hx
    rcases (extraTurn_iff g _).mp hx with ⟨ha, hb⟩ | ⟨ha, hb⟩ <;>
      rcases hown with ⟨ha2, hb2⟩ | ⟨ha2, hb2, hb3⟩ <;> omega
  have hb1len : (sowStage g pit).1.length = 2 * g.pits + 2 := by
    unfold sowStage
    rw [sow_length, List.length_set]
    exact hlen
  have hMboard : (moveResult g pit).board
      = captureStage g (sowStage g pit).1 (sowStage g pit).2 := by
    unfold moveResult
    dsimp only
    rw [if_neg hex]
  rw [hMboard]
  rcases hown with ⟨h0, hw⟩ | ⟨h1, hw1, hw2⟩
  · rw [if_pos h0]
    exact captureStage_spec0 g (sowStage g pit).1 (sowStage g pit).2 hb1len h0 hw hone
  · rw [if_neg (by omega)]
    exact captureStage_spec1 g (sowStage g pit).1 (sowStage g pit).2 hb1len h1 hw1 hw2 hone

/-- C4 witness: with 3 pits per player, board `[1,0,1 | 0 | 1,2,0 | 0]` and
player 0 to move, playing pit 0 lands on own pit 1 (then holding 1 stone);
the opposite pit 5 holds 2 stones, the game does not end, and the house ends
at `0 + 2 + 1 = 3` with pits 1 and 5 zeroed. -/
theorem C4_capture_witness :
    make_move (Mancala.mk 3 [1, 0, 1, 0, 1, 2, 0, 0] 0) 0
        = some (Mancala.mk 3 [0, 0, 1, 3, 1, 0, 0, 0] 1, false)
      ∧ ((0 < 2 →
          (Mancala.mk 3 [0, 0, 1, 3, 1, 0, 0, 0] 1).board.getD
              (if (Mancala.mk 3 [1, 0, 1, 0, 1, 2, 0, 0] 0).current_player = 0
                then (Mancala.mk 3 [1, 0, 1, 0, 1, 2, 0, 0] 0).pits
                else 2 * (Mancala.mk 3 [1, 0, 1, 0, 1, 2, 0, 0] 0).pits + 1) 0
            = (sowStage (Mancala.mk 3 [1, 0, 1, 0, 1, 2, 0, 0] 0) 0).1.getD
                (if (Mancala.mk 3 [1, 0, 1, 0, 1, 2, 0, 0] 0).current_player = 0
                  then (Mancala.mk 3 [1, 0, 1, 0, 1, 2, 0, 0] 0).pits
                  else 2 * (Mancala.mk 3 [1, 0, 1, 0, 1, 2, 0, 0] 0).pits + 1) 0 + 2 + 1
          ∧ (Mancala.mk 3 [0, 0, 1, 3, 1, 0, 0, 0] 1).board.getD 1 0 = 0
          ∧ (Mancala.mk 3 [0, 0, 1, 3, 1, 0, 0, 0] 1).board.getD
              (2 * (Mancala.mk 3 [1, 0, 1, 0, 1, 2, 0, 0] 0).pits - 1) 0 = 0)
        ∧ ((2 : Nat) = 0 →
            (Mancala.mk 3 [0, 0, 1, 3, 1, 0, 0, 0] 1).board
              = (sowStage (Mancala.mk 3 [1, 0, 1, 0, 1, 2, 0, 0] 0) 0).1)) :=
  ⟨by decide,
    C4_capture (Mancala.mk 3 [1, 0, 1, 0, 1, 2, 0, 0] 0) 0 _ 1 2 (by decide)
      (by decide) (by decide) (by decide) (by decide) (by decide)⟩

/-- C5 witness: with 2 pits per player and board `[0,0 | 3 | 1,2 | 4]`
player 0's side is empty, so the check reports game over and sweeps. -/
theorem C5_check_game_over_witness :
    (Mancala.mk 2 [0, 0, 3, 1, 2, 4] 0).board.length
        = 2 * (Mancala.mk 2 [0, 0, 3, 1, 2, 4] 0).pits + 2
      ∧ (((check_game_over (Mancala.mk 2 [0, 0, 3, 1, 2, 4] 0)).1 = true
            ↔ sumRange (Mancala.mk 2 [0, 0, 3, 1, 2, 4] 0).board 0
                  (Mancala.mk 2 [0, 0, 3, 1, 2, 4] 0).pits = 0
              ∨ sumRange (Mancala.mk 2 [0, 0, 3, 1, 2, 4] 0).board
                  ((Mancala.mk 2 [0, 0, 3, 1, 2, 4] 0).pits + 1)
                  (Mancala.mk 2 [0, 0, 3, 1, 2, 4] 0).pits = 0)
          ∧ ((check_game_over (Mancala.mk 2 [0, 0, 3, 1, 2, 4] 0)).1 = true →
              (∀ i, (i < (Mancala.mk 2 [0, 0, 3, 1, 2, 4] 0).pits
                  ∨ ((Mancala.mk 2 [0, 0, 3, 1, 2, 4] 0).pits + 1 ≤ i
                      ∧ i < 2 * (Mancala.mk 2 [0, 0, 3, 1, 2, 4] 0).pits + 1)) →
                  (check_game_over (Mancala.mk 2 [0, 0, 3, 1, 2, 4] 0)).2.board.getD i 0 = 0)
                ∧ (check_game_over (Mancala.mk 2 [0, 0, 3, 1, 2, 4] 0)).2.board.sum
                    = (check_game_over (Mancala.mk 2 [0, 0, 3, 1, 2, 4] 0)).2.board.getD
                        (Mancala.mk 2 [0, 0, 3, 1, 2, 4] 0).pits 0
                      + (check_game_over (Mancala.mk 2 [0, 0, 3, 1, 2, 4] 0)).2.board.getD
                        (2 * (Mancala.mk 2 [0, 0, 3, 1, 2, 4] 0).pits + 1) 0
                ∧ (check_game_over (Mancala.mk 2 [0, 0, 3, 1, 2, 4] 0)).2.board.sum
                    = (Mancala.mk 2 [0, 0, 3, 1, 2, 4] 0).board.sum
                ∧ check_game_over (check_game_over (Mancala.mk 2 [0, 0, 3, 1, 2, 4] 0)).2
                    = (true, (check_game_over (Mancala.mk 2 [0, 0, 3, 1, 2, 4] 0)).2))
          ∧ ((check_game_over (Mancala.mk 2 [0, 0, 3, 1, 2, 4] 0)).1 = false →
              (check_game_over (Mancala.mk 2 [0, 0, 3, 1, 2, 4] 0)).2
                = Mancala.mk 2 [0, 0, 3, 1, 2, 4] 0)) :=
  ⟨by decide, C5_check_game_over (Mancala.mk 2 [0, 0, 3, 1, 2, 4] 0) (by decide)⟩

/-- C6 witness: the same terminal position; player 1 wins 7 to 3, and the
answer is the same before and after sweeping. -/
theorem C6_get_winner_witness :
    (Mancala.mk 2 [0, 0, 3, 1, 2, 4] 0).board.length
        = 2 * (Mancala.mk 2 [0, 0, 3, 1, 2, 4] 0).pits + 2
      ∧ ((get_winner (Mancala.mk 2 [0, 0, 3, 1, 2, 4] 0) = none ↔
            ¬(sumRange (Mancala.mk 2 [0, 0, 3, 1, 2, 4] 0).board 0
                  (Mancala.mk 2 [0, 0, 3, 1, 2, 4] 0).pits = 0
              ∨ sumRange (Mancala.mk 2 [0, 0, 3, 1, 2, 4] 0).board
                  ((Mancala.mk 2 [0, 0, 3, 1, 2, 4] 0).pits + 1)
                  (Mancala.mk 2 [0, 0, 3, 1, 2, 4] 0).pits = 0))
          ∧ ((sumRange (Mancala.mk 2 [0, 0, 3, 1, 2, 4] 0).board 0
                  (Mancala.mk 2 [0, 0, 3, 1, 2, 4] 0).pits = 0
              ∨ sumRange (Mancala.mk 2 [0, 0, 3, 1, 2, 4] 0).board
                  ((Mancala.mk 2 [0, 0, 3, 1, 2, 4] 0).pits + 1)
                  (Mancala.mk 2 [0, 0, 3, 1, 2, 4] 0).pits = 0) →
              ((get_winner (Mancala.mk 2 [0, 0, 3, 1, 2, 4] 0) = some 0
                  ↔ final_score1 (Mancala.mk 2 [0, 0, 3, 1, 2, 4] 0) < final_score0 (Mancala.mk 2 [0, 0, 3, 1, 2, 4] 0))
                ∧ (get_winner (Mancala.mk 2 [0, 0, 3, 1, 2, 4] 0) = some 1
                  ↔ final_score0 (Mancala.mk 2 [0, 0, 3, 1, 2, 4] 0) < final_score1 (Mancala.mk 2 [0, 0, 3, 1, 2, 4] 0))
                ∧ (get_winner (Mancala.mk 2 [0, 0, 3, 1, 2, 4] 0) = some (-1)
                  ↔ final_score0 (Mancala.mk 2 [0, 0, 3, 1, 2, 4] 0) = final_score1 (Mancala.mk 2 [0, 0, 3, 1, 2, 4] 0))))
          ∧ get_winner (check_game_over (Mancala.mk 2 [0, 0, 3, 1, 2, 4] 0)).2
              = get_winner (Mancala.mk 2 [0, 0, 3, 1, 2, 4] 0)) :=
  ⟨by decide, C6_get_winner (Mancala.mk 2 [0, 0, 3, 1, 2, 4] 0) (by decide)⟩

/-! ### Claim theorems: deterministic best-move selection -/

theorem iv_lt_iv (a b : Int) : iv a < iv b ↔ a < b := by
  unfold iv
  rw [WithBot.coe_lt_coe, WithTop.coe_lt_coe]

theorem iv_le_iv (a b : Int) : iv a ≤ iv b ↔ a ≤ b := by
  unfold iv
  rw [WithBot.coe_le_coe, WithTop.coe_le_coe]

theorem iv_inj (a b : Int) (h : iv a = iv b) : a = b := by
  have h1 := (iv_le_iv a b).mp (le_of_eq h)
  have h2 := (iv_le_iv b a).mp (le_of_eq h.symm)
  omega

theorem bot_lt_iv (a : Int) : (⊥ : ExtInt) < iv a := WithBot.bot_lt_coe _

theorem iv_lt_top (a : Int) : iv a < (⊤ : ExtInt) := by
  unfold iv
  rw [← WithBot.coe_top, WithBot.coe_lt_coe]
  exact WithTop.coe_lt_top _

theorem legal_sorted (g : Mancala) :
    List.Pairwise (fun a b => a < b) (legal_moves g) := by
  unfold legal_moves
  split
  · exact List.Pairwise.filter _ (List.pairwise_lt_range _)
  · apply List.Pairwise.filter
    exact List.Pairwise.map _ (fun a b h => by omega) (List.pairwise_lt_range _)

theorem cbVal_eq (g : Mancala) (depth : Nat) (mv : Nat)
    (hs : (make_move g mv).isSome = true) :
    cbVal g depth mv
      = alpha_beta ((make_move g mv).get hs).1
          (if ((make_move g mv).get hs).1.current_player = g.current_player
            then depth else depth - 1)
          ⊥ ⊤ (((make_move g mv).get hs).1.current_player == g.current_player)
          g.current_player := by
  unfold cbVal
  split
  case h_1 r heq =>
    have hr : (make_move g mv).get hs = r := by
      apply Option.some.inj
      rw [Option.some_get, heq]
    rw [hr]
  case h_2 heq =>
    rw [heq] at hs
    exact absurd hs (by simp)

theorem cbLoop_cons_eq (mv : Nat) (rest : List Nat) (g : Mancala) (depth : Nat)
    (best : Option Nat) (bs : ExtInt)
    (hmv : ∀ m ∈ mv :: rest, m ∈ legal_moves g) :
    cbLoop (mv :: rest) g depth g.current_player best bs hmv
      = if bs < iv (cbVal g depth mv) then
          cbLoop rest g depth g.current_player (some mv) (iv (cbVal g depth mv))
            (fun m hm => hmv m (List.mem_cons_of_mem mv hm))
        else
          cbLoop rest g depth g.current_player best bs
            (fun m hm => hmv m (List.mem_cons_of_mem mv hm)) := by
  simp only [cbLoop]
  rw [← cbVal_eq g depth mv (make_move_isSome g mv (hmv mv (List.mem_cons_self mv rest)))]

theorem cbLoop_spec (g : Mancala) (depth : Nat) :
    ∀ (moves : List Nat) (best : Option Nat) (bs : ExtInt)
      (hmv : ∀ m ∈ moves, m ∈ legal_moves g),
      (best = none → bs = ⊥) →
      (∀ b, best = some b → bs = iv (cbVal g depth b)) →
      (∀ b, best = some b → ∀ m ∈ moves, b < m) →
      List.Pairwise (fun a b => a < b) moves →
      ((cbLoop moves g depth g.current_player best bs hmv = none
          ↔ (moves = [] ∧ best = none))
        ∧ (∀ b2, cbLoop moves g depth g.current_player best bs hmv = some b2 →
            (best = some b2 ∨ b2 ∈ moves)
              ∧ bs ≤ iv (cbVal g depth b2)
              ∧ (best = some b2 ∨ bs < iv (cbVal g depth b2))
              ∧ (∀ m ∈ moves, iv (cbVal g depth m) < iv (cbVal g depth b2)
                  ∨ (iv (cbVal g depth m) = iv (cbVal g depth b2)
                      ∧ (best = some b2 ∨ b2 ≤ m))))) := by
  intro moves
  induction moves with
  | nil =>
    intro best bs hmv h1 h2 h3 _
    constructor
    · constructor
      · intro h
        exact ⟨rfl, h⟩
      · rintro ⟨_, h⟩
        exact h
    · intro b2 hb2
      refine ⟨Or.inl hb2, le_of_eq (h2 b2 hb2), Or.inl hb2, ?_⟩
      intro m hm
      exact absurd hm (by simp)
  | cons mv rest ih =>
    intro best bs hmv h1 h2 h3 hsort
    rw [cbLoop_cons_eq]
    by_cases hlt : bs < iv (cbVal g depth mv)
    · rw [if_pos hlt]
      have hres := ih (some mv) (iv (cbVal g depth mv))
          (fun m hm => hmv m (List.mem_cons_of_mem mv hm))
          (fun h => absurd h (by simp))
          (fun b hb => by rw [Option.some.inj hb])
          (fun b hb m hm => by
            rw [← Option.some.inj hb] at *
            exact (List.pairwise_cons.mp hsort).1 m hm)
          (List.pairwise_cons.mp hsort).2
      constructor
      · constructor
        · intro h
          have := hres.1.mp h
          exact absurd this.2 (by simp)
        · rintro ⟨h, _⟩
          exact absurd h (by simp)
      · intro b2 hb2
        have hc := hres.2 b2 hb2
        have hmvb2 : mv = b2 ∨ b2 ∈ rest := by
          rcases hc.1 with h | h
          · exact Or.inl (Option.some.inj h)
          · exact Or.inr h
        refine ⟨?_, ?_, ?_, ?_⟩
        · rcases hmvb2 with h | h
          · exact Or.inr (h ▸ List.mem_cons_self mv rest)
          · exact Or.inr (List.mem_cons_of_mem mv h)
        · exact le_of_lt (lt_of_lt_of_le hlt hc.2.1)
        · exact Or.inr (lt_of_lt_of_le hlt hc.2.1)
        · intro m hm
          rcases List.mem_cons.mp hm with hmv0 | hmr
          · subst hmv0
            rcases lt_or_eq_of_le hc.2.1 with h | h
            · exact Or.inl h
            · right
              refine ⟨h, ?_⟩
              rcases hc.2.2.1 with h2 | h2
              · exact Or.inr (le_of_eq (Option.some.inj h2).symm)
              · exact absurd h2 (by rw [← h]; exact lt_irrefl _)
          · rcases hc.2.2.2 m hmr with h | ⟨he, hor⟩
            · exact Or.inl h
            · right
              refine ⟨he, ?_⟩
              rcases hor with h2 | h2
              · have hb2mv : b2 = mv := (Option.some.inj h2).symm
                subst hb2mv
                exact Or.inr (le_of_lt ((List.pairwise_cons.mp hsort).1 m hmr))
              · exact Or.inr h2
    · rw [if_neg hlt]
      obtain ⟨b0, hb0⟩ : ∃ b0, best = some b0 := by
        cases hbest : best with
        | none =>
          exfalso
          have := h1 hbest
          rw [this] at hlt
          exact hlt (bot_lt_iv _)
        | some b0 => exact ⟨b0, rfl⟩
      have hres := ih best bs
          (fun m hm => hmv m (List.mem_cons_of_mem mv hm))
          h1 h2
          (fun b hb m hm => h3 b hb m (List.mem_cons_of_mem mv hm))
          (List.pairwise_cons.mp hsort).2
      constructor
      · constructor
        · intro h
          have := hres.1.mp h
          rw [this.2] at hb0
          exact absurd hb0 (by simp)
        · rintro ⟨h, _⟩
          exact absurd h (by simp)
      · intro b2 hb2
        have hc := hres.2 b2 hb2
        refine ⟨?_, hc.2.1, hc.2.2.1, ?_⟩
        · rcases hc.1 with h | h
          · exact Or.inl h
          · exact Or.inr (List.mem_cons_of_mem mv h)
        · intro m hm
          rcases List.mem_cons.mp hm with hmv0 | hmr
          · subst hmv0
            have hle : iv (cbVal g depth m) ≤ bs := le_of_not_lt hlt
            have hle2 : iv (cbVal g depth m) ≤ iv (cbVal g depth b2) :=
              le_trans hle hc.2.1
            rcases lt_or_eq_of_le hle2 with h | h
            · exact Or.inl h
            · right
              refine ⟨h, ?_⟩
              rcases hc.2.2.1 with h2 | h2
              · exact Or.inl h2
              · exfalso
                have : bs = iv (cbVal g depth b2) :=
                  le_antisymm hc.2.1 (le_trans (le_of_eq h.symm) hle)
                rw [this] at h2
                exact lt_irrefl _ h2
          · exact hc.2.2.2 m hmr

/-- C9: `choose_best_move` returns `none` exactly when there is no legal
move; otherwise it returns a legal pit index whose full-window search value
is maximal among the legal moves, and on ties it is the smallest such index
(the legal list is ascending and a later move replaces the incumbent only on
a strictly greater score) — in particular the choice is a pure function of
the state and depth, so repeated calls agree. -/
theorem C9_choose_best_move (g : Mancala) (depth : Nat) :
    (choose_best_move g depth = none ↔ legal_moves g = [])
      ∧ ∀ b, choose_best_move g depth = some b →
          b ∈ legal_moves g
            ∧ ∀ m ∈ legal_moves g,
                cbVal g depth m < cbVal g depth b
                  ∨ (cbVal g depth m = cbVal g depth b ∧ b ≤ m) := by
  unfold choose_best_move
  by_cases hL : legal_moves g = []
  · rw [if_pos hL]
    constructor
    · exact ⟨fun _ => hL, fun _ => rfl⟩
    · intro b hb
      exact absurd hb (by simp)
  · rw [if_neg hL]
    have hspec := cbLoop_spec g depth (legal_moves g) none ⊥ (fun _ hm => hm)
        (fun _ => rfl) (fun b hb => absurd hb (by simp))
        (fun b hb => absurd hb (by simp)) (legal_sorted g)
    constructor
    · constructor
      · intro h
        exact (hspec.1.mp h).1
      · intro h
        exact absurd h hL
    · intro b hb
      have h2 := hspec.2 b hb
      constructor
      · rcases h2.1 with h | h
        · exact absurd h (by simp)
        · exact h
      · intro m hm
        rcases h2.2.2.2 m hm with h | ⟨he, hor⟩
        · exact Or.inl ((iv_lt_iv _ _).mp h)
        · right
          refine ⟨iv_inj _ _ he, ?_⟩
          rcases hor with h | h
          · exact absurd h (by simp)
          · exact h

/-- `alpha_beta` at depth 0 is just the evaluation function. -/
theorem alpha_beta_depth0 (g : Mancala) (a b : ExtInt) (maxi : Bool) (pl : Nat) :
    alpha_beta g 0 a b maxi pl = evaluate g pl := by
  unfold alpha_beta
  simp

theorem alpha_beta_depth0_ite (g : Mancala) (c : Prop) [Decidable c]
    (a b : ExtInt) (maxi : Bool) (pl : Nat) :
    alpha_beta g (if c then 0 else 0 - 1) a b maxi pl = evaluate g pl := by
  by_cases h : c
  · rw [if_pos h, alpha_beta_depth0]
  · rw [if_neg h]
    rw [show (0 : Nat) - 1 = 0 from rfl, alpha_beta_depth0]

/-- C9 witness: on the fresh board at depth 0 the chosen move is pit 2 — the
first (and only) move whose immediate evaluation is maximal. -/
theorem C9_choose_best_move_witness :
    choose_best_move (newGame 4 6) 0 = some 2
      ∧ (2 ∈ legal_moves (newGame 4 6)
          ∧ ∀ m ∈ legal_moves (newGame 4 6),
              cbVal (newGame 4 6) 0 m < cbVal (newGame 4 6) 0 2
                ∨ (cbVal (newGame 4 6) 0 m = cbVal (newGame 4 6) 0 2 ∧ 2 ≤ m)) := by
  have hcb : choose_best_move (newGame 4 6) 0 = some 2 := by
    show cbLoop [0, 1, 2, 3, 4, 5] (newGame 4 6) 0 0 none ⊥ (fun _ hm => hm) = some 2
    simp only [cbLoop, alpha_beta_depth0_ite]
    decide
  exact ⟨hcb, (C9_choose_best_move (newGame 4 6) 0).2 2 hcb⟩

/-- C3 witness: after the opening move from pit 2 the total is still 48. -/
theorem C3_conservation_witness :
    make_move (newGame 4 6) 2
        = some (Mancala.mk 6 [4, 4, 0, 5, 5, 5, 1, 4, 4, 4, 4, 4, 4, 0] 0, false)
      ∧ ((Mancala.mk 6 [4, 4, 0, 5, 5, 5, 1, 4, 4, 4, 4, 4, 4, 0] 0).board.sum = 2 * 6 * 4
        ∧ (Mancala.mk 6 [4, 4, 0, 5, 5, 5, 1, 4, 4, 4, 4, 4, 4, 0] 0).board.length
            = 2 * (Mancala.mk 6 [4, 4, 0, 5, 5, 5, 1, 4, 4, 4, 4, 4, 4, 0] 0).pits + 2
        ∧ (Mancala.mk 6 [4, 4, 0, 5, 5, 5, 1, 4, 4, 4, 4, 4, 4, 0] 0).pits = 6) :=
  ⟨by decide,
    C3_conservation 4 6 (Mancala.mk 6 [4, 4, 0, 5, 5, 5, 1, 4, 4, 4, 4, 4, 4, 0] 0)
      (Reachable.step (newGame 4 6)
        (Mancala.mk 6 [4, 4, 0, 5, 5, 5, 1, 4, 4, 4, 4, 4, 4, 0] 0) 2 false
        Reachable.init (by decide))⟩

/-! ### Pruning does not change the returned value (fail-soft bounds) -/

/-- The classical fail-soft alpha-beta relation between the pruned result `r`
and the exact minimax value `m` for a window `(alpha, beta)`: inside the
window they agree, a fail-low result upper-bounds the exact value and a
fail-high result lower-bounds it. -/
def ABapprox (r m alpha beta : ExtInt) : Prop :=
  (r ≤ alpha → m ≤ r) ∧ (alpha < r → r < beta → r = m) ∧ (beta ≤ r → r ≤ m)

/-- An extended score that is an actual integer. -/
def isFin (x : ExtInt) : Prop := ∃ z : Int, x = iv z

theorem toInt_iv (z : Int) : toInt (iv z) = z := rfl

theorem iv_toInt (x : ExtInt) (h : isFin x) : iv (toInt x) = x := by
  obtain ⟨z, rfl⟩ := h
  rfl

theorem isFin_max_iv (v : ExtInt) (z : Int) (h : v = ⊥ ∨ isFin v) :
    isFin (max v (iv z)) := by
  rcases h with h | ⟨w, hw⟩
  · subst h
    exact ⟨z, max_eq_right bot_le⟩
  · subst hw
    refine ⟨max w z, ?_⟩
    unfold iv
    rw [← WithBot.coe_max, ← WithTop.coe_max]
  -- the coercions of a maximum form the maximum of the coercions

theorem isFin_min_iv (v : ExtInt) (z : Int) (h : v = ⊤ ∨ isFin v) :
    isFin (min (iv z) v) := by
  rcases h with h | ⟨w, hw⟩
  · subst h
    exact ⟨z, min_eq_left le_top⟩
  · subst hw
    refine ⟨min z w, ?_⟩
    unfold iv
    rw [← WithBot.coe_min, ← WithTop.coe_min]

theorem abMaxLoop_nil (g : Mancala) (depth : Nat) (alpha beta : ExtInt)
    (player : Nat) (value : ExtInt) (hmv : ∀ m ∈ ([] : List Nat), m ∈ legal_moves g)
    (hd : 0 < depth) :
    abMaxLoop [] g depth alpha beta player value hmv hd = value := by
  simp only [abMaxLoop]

theorem abMinLoop_nil (g : Mancala) (depth : Nat) (alpha beta : ExtInt)
    (player : Nat) (value : ExtInt) (hmv : ∀ m ∈ ([] : List Nat), m ∈ legal_moves g)
    (hd : 0 < depth) :
    abMinLoop [] g depth alpha beta player value hmv hd = value := by
  simp only [abMinLoop]

theorem mmMaxLoop_nil (g : Mancala) (depth : Nat) (player : Nat) (value : ExtInt)
    (hmv : ∀ m ∈ ([] : List Nat), m ∈ legal_moves g) (hd : 0 < depth) :
    mmMaxLoop [] g depth player value hmv hd = value := by
  simp only [mmMaxLoop]

theorem mmMinLoop_nil (g : Mancala) (depth : Nat) (player : Nat) (value : ExtInt)
    (hmv : ∀ m ∈ ([] : List Nat), m ∈ legal_moves g) (hd : 0 < depth) :
    mmMinLoop [] g depth player value hmv hd = value := by
  simp only [mmMinLoop]

theorem abMaxLoop_cons (mv : Nat) (rest : List Nat) (g : Mancala) (depth : Nat)
    (alpha beta : ExtInt) (player : Nat) (value : ExtInt)
    (hmv : ∀ m ∈ mv :: rest, m ∈ legal_moves g) (hd : 0 < depth)
    (child : Mancala) (s : Int)
    (hchild : child = ((make_move g mv).get
      (make_move_isSome g mv (hmv mv (List.mem_cons_self mv rest)))).1)
    (hsc : s = alpha_beta child
      (if child.current_player = g.current_player then depth else depth - 1)
      alpha beta (child.current_player == player) player) :
    abMaxLoop (mv :: rest) g depth alpha beta player value hmv hd
      = if beta ≤ max alpha (max value (iv s)) then max value (iv s)
        else abMaxLoop rest g depth (max alpha (max value (iv s))) beta player
            (max value (iv s)) (fun m hm => hmv m (List.mem_cons_of_mem mv hm)) hd := by
  subst hchild
  subst hsc
  simp only [abMaxLoop]
  rw [← max_def_lt value (iv _), ← max_def_lt alpha (max value (iv _))]

theorem abMinLoop_cons (mv : Nat) (rest : List Nat) (g : Mancala) (depth : Nat)
    (alpha beta : ExtInt) (player : Nat) (value : ExtInt)
    (hmv : ∀ m ∈ mv :: rest, m ∈ legal_moves g) (hd : 0 < depth)
    (child : Mancala) (s : Int)
    (hchild : child = ((make_move g mv).get
      (make_move_isSome g mv (hmv mv (List.mem_cons_self mv rest)))).1)
    (hsc : s = alpha_beta child
      (if child.current_player = g.current_player then depth else depth - 1)
      alpha beta (child.current_player == player) player) :
    abMinLoop (mv :: rest) g depth alpha beta player value hmv hd
      = if min (min (iv s) value) beta ≤ alpha then min (iv s) value
        else abMinLoop rest g depth alpha (min (min (iv s) value) beta) player
            (min (iv s) value) (fun m hm => hmv m (List.mem_cons_of_mem mv hm)) hd := by
  subst hchild
  subst hsc
  simp only [abMinLoop]
  rw [← min_def_lt (iv _) value, ← min_def_lt (min (iv _) value) beta]

theorem mmMaxLoop_cons (mv : Nat) (rest : List Nat) (g : Mancala) (depth : Nat)
    (player : Nat) (value : ExtInt)
    (hmv : ∀ m ∈ mv :: rest, m ∈ legal_moves g) (hd : 0 < depth)
    (child : Mancala) (s : Int)
    (hchild : child = ((make_move g mv).get
      (make_move_isSome g mv (hmv mv (List.mem_cons_self mv rest)))).1)
    (hsc : s = minimax child
      (if child.current_player = g.current_player then depth else depth - 1)
      (child.current_player == player) player) :
    mmMaxLoop (mv :: rest) g depth player value hmv hd
      = mmMaxLoop rest g depth player (max value (iv s))
          (fun m hm => hmv m (List.mem_cons_of_mem mv hm)) hd := by
  subst hchild
  subst hsc
  simp only [mmMaxLoop]
  rw [← max_def_lt value (iv _)]

theorem mmMinLoop_cons (mv : Nat) (rest : List Nat) (g : Mancala) (depth : Nat)
    (player : Nat) (value : ExtInt)
    (hmv : ∀ m ∈ mv :: rest, m ∈ legal_moves g) (hd : 0 < depth)
    (child : Mancala) (s : Int)
    (hchild : child = ((make_move g mv).get
      (make_move_isSome g mv (hmv mv (List.mem_cons_self mv rest)))).1)
    (hsc : s = minimax child
      (if child.current_player = g.current_player then depth else depth - 1)
      (child.current_player == player) player) :
    mmMinLoop (mv :: rest) g depth player value hmv hd
      = mmMinLoop rest g depth player (min (iv s) value)
          (fun m hm => hmv m (List.mem_cons_of_mem mv hm)) hd := by
  subst hchild
  subst hsc
  simp only [mmMinLoop]
  rw [← min_def_lt (iv _) value]

theorem mmMaxLoop_decomp : ∀ (moves : List Nat) (g : Mancala) (depth : Nat)
    (player : Nat) (value : ExtInt) (hmv : ∀ m ∈ moves, m ∈ legal_moves g)
    (hd : 0 < depth),
    mmMaxLoop moves g depth player value hmv hd
      = max value (mmMaxLoop moves g depth player ⊥ hmv hd) := by
  intro moves
  induction moves with
  | nil =>
    intro g depth player value hmv hd
    rw [mmMaxLoop_nil, mmMaxLoop_nil, max_eq_left bot_le]
  | cons mv rest ih =>
    intro g depth player value hmv hd
    obtain ⟨child, hchild⟩ : ∃ c, c = ((make_move g mv).get
        (make_move_isSome g mv (hmv mv (List.mem_cons_self mv rest)))).1 := ⟨_, rfl⟩
    obtain ⟨s, hsc⟩ : ∃ s, s = minimax child
        (if child.current_player = g.current_player then depth else depth - 1)
        (child.current_player == player) player := ⟨_, rfl⟩
    rw [mmMaxLoop_cons mv rest g depth player value hmv hd child s hchild hsc]
    rw [mmMaxLoop_cons mv rest g depth player ⊥ hmv hd child s hchild hsc]
    rw [ih g depth player (max value (iv s)), ih g depth player (max ⊥ (iv s))]
    rw [max_eq_right bot_le, max_assoc]

theorem mmMinLoop_decomp : ∀ (moves : List Nat) (g : Mancala) (depth : Nat)
    (player : Nat) (value : ExtInt) (hmv : ∀ m ∈ moves, m ∈ legal_moves g)
    (hd : 0 < depth),
    mmMinLoop moves g depth player value hmv hd
      = min value (mmMinLoop moves g depth player ⊤ hmv hd) := by
  intro moves
  induction moves with
  | nil =>
    intro g depth player value hmv hd
    rw [mmMinLoop_nil, mmMinLoop_nil, min_eq_left le_top]
  | cons mv rest ih =>
    intro g depth player value hmv hd
    obtain ⟨child, hchild⟩ : ∃ c, c = ((make_move g mv).get
        (make_move_isSome g mv (hmv mv (List.mem_cons_self mv rest)))).1 := ⟨_, rfl⟩
    obtain ⟨s, hsc⟩ : ∃ s, s = minimax child
        (if child.current_player = g.current_player then depth else depth - 1)
        (child.current_player == player) player := ⟨_, rfl⟩
    rw [mmMinLoop_cons mv rest g depth player value hmv hd child s hchild hsc]
    rw [mmMinLoop_cons mv rest g depth player ⊤ hmv hd child s hchild hsc]
    rw [ih g depth player (min (iv s) value), ih g depth player (min (iv s) ⊤)]
    rw [min_eq_left le_top]
    rw [min_comm (iv s) value, min_assoc, min_left_comm]

theorem abMaxLoop_isFin : ∀ (moves : List Nat) (g : Mancala) (depth : Nat)
    (alpha beta : ExtInt) (player : Nat) (value : ExtInt)
    (hmv : ∀ m ∈ moves, m ∈ legal_moves g) (hd : 0 < depth),
    isFin value → isFin (abMaxLoop moves g depth alpha beta player value hmv hd) := by
  intro moves
  induction moves with
  | nil =>
    intro g depth alpha beta player value hmv hd hv
    rw [abMaxLoop_nil]
    exact hv
  | cons mv rest ih =>
    intro g depth alpha beta player value hmv hd hv
    obtain ⟨child, hchild⟩ : ∃ c, c = ((make_move g mv).get
        (make_move_isSome g mv (hmv mv (List.mem_cons_self mv rest)))).1 := ⟨_, rfl⟩
    obtain ⟨s, hsc⟩ : ∃ s, s = alpha_beta child
        (if child.current_player = g.current_player then depth else depth - 1)
        alpha beta (child.current_player == player) player := ⟨_, rfl⟩
    rw [abMaxLoop_cons mv rest g depth alpha beta player value hmv hd child s hchild hsc]
    by_cases hb : beta ≤ max alpha (max value (iv s))
    · rw [if_pos hb]
      exact isFin_max_iv _ _ (Or.inr hv)
    · rw [if_neg hb]
      exact ih _ _ _ _ _ _ _ _ (isFin_max_iv _ _ (Or.inr hv))

theorem abMinLoop_isFin : ∀ (moves : List Nat) (g : Mancala) (depth : Nat)
    (alpha beta : ExtInt) (player : Nat) (value : ExtInt)
    (hmv : ∀ m ∈ moves, m ∈ legal_moves g) (hd : 0 < depth),
    isFin value → isFin (abMinLoop moves g depth alpha beta player value hmv hd) := by
  intro moves
  induction moves with
  | nil =>
    intro g depth alpha beta player value hmv hd hv
    rw [abMinLoop_nil]
    exact hv
  | cons mv rest ih =>
    intro g depth alpha beta player value hmv hd hv
    obtain ⟨child, hchild⟩ : ∃ c, c = ((make_move g mv).get
        (make_move_isSome g mv (hmv mv (List.mem_cons_self mv rest)))).1 := ⟨_, rfl⟩
    obtain ⟨s, hsc⟩ : ∃ s, s = alpha_beta child
        (if child.current_player = g.current_player then depth else depth - 1)
        alpha beta (child.current_player == player) player := ⟨_, rfl⟩
    rw [abMinLoop_cons mv rest g depth alpha beta player value hmv hd child s hchild hsc]
    by_cases hb : min (min (iv s) value) beta ≤ alpha
    · rw [if_pos hb]
      exact isFin_min_iv _ _ (Or.inr hv)
    · rw [if_neg hb]
      exact ih _ _ _ _ _ _ _ _ (isFin_min_iv _ _ (Or.inr hv))

theorem mmMaxLoop_isFin : ∀ (moves : List Nat) (g : Mancala) (depth : Nat)
    (player : Nat) (value : ExtInt)
    (hmv : ∀ m ∈ moves, m ∈ legal_moves g) (hd : 0 < depth),
    isFin value → isFin (mmMaxLoop moves g depth player value hmv hd) := by
  intro moves
  induction moves with
  | nil =>
    intro g depth player value hmv hd hv
    rw [mmMaxLoop_nil]
    exact hv
  | cons mv rest ih =>
    intro g depth player value hmv hd hv
    rw [mmMaxLoop_cons mv rest g depth player value hmv hd _ _ rfl rfl]
    exact ih _ _ _ _ _ _ (isFin_max_iv _ _ (Or.inr hv))

theorem mmMinLoop_isFin : ∀ (moves : List Nat) (g : Mancala) (depth : Nat)
    (player : Nat) (value : ExtInt)
    (hmv : ∀ m ∈ moves, m ∈ legal_moves g) (hd : 0 < depth),
    isFin value → isFin (mmMinLoop moves g depth player value hmv hd) := by
  intro moves
  induction moves with
  | nil =>
    intro g depth player value hmv hd hv
    rw [mmMinLoop_nil]
    exact hv
  | cons mv rest ih =>
    intro g depth player value hmv hd hv
    rw [mmMinLoop_cons mv rest g depth player value hmv hd _ _ rfl rfl]
    exact ih _ _ _ _ _ _ (isFin_min_iv _ _ (Or.inr hv))

theorem abMaxLoop_bot_isFin (mv : Nat) (rest : List Nat) (g : Mancala)
    (depth : Nat) (alpha beta : ExtInt) (player : Nat)
    (hmv : ∀ m ∈ mv :: rest, m ∈ legal_moves g) (hd : 0 < depth) :
    isFin (abMaxLoop (mv :: rest) g depth alpha beta player ⊥ hmv hd) := by
  obtain ⟨child, hchild⟩ : ∃ c, c = ((make_move g mv).get
      (make_move_isSome g mv (hmv mv (List.mem_cons_self mv rest)))).1 := ⟨_, rfl⟩
  obtain ⟨s, hsc⟩ : ∃ s, s = alpha_beta child
      (if child.current_player = g.current_player then depth else depth - 1)
      alpha beta (child.current_player == player) player := ⟨_, rfl⟩
  rw [abMaxLoop_cons mv rest g depth alpha beta player ⊥ hmv hd child s hchild hsc]
  by_cases hb : beta ≤ max alpha (max ⊥ (iv s))
  · rw [if_pos hb]
    exact isFin_max_iv _ _ (Or.inl rfl)
  · rw [if_neg hb]
    exact abMaxLoop_isFin _ _ _ _ _ _ _ _ _ (isFin_max_iv _ _ (Or.inl rfl))

theorem abMinLoop_top_isFin (mv : Nat) (rest : List Nat) (g : Mancala)
    (depth : Nat) (alpha beta : ExtInt) (player : Nat)
    (hmv : ∀ m ∈ mv :: rest, m ∈ legal_moves g) (hd : 0 < depth) :
    isFin (abMinLoop (mv :: rest) g depth alpha beta player ⊤ hmv hd) := by
  obtain ⟨child, hchild⟩ : ∃ c, c = ((make_move g mv).get
      (make_move_isSome g mv (hmv mv (List.mem_cons_self mv rest)))).1 := ⟨_, rfl⟩
  obtain ⟨s, hsc⟩ : ∃ s, s = alpha_beta child
      (if child.current_player = g.current_player then depth else depth - 1)
      alpha beta (child.current_player == player) player := ⟨_, rfl⟩
  rw [abMinLoop_cons mv rest g depth alpha beta player ⊤ hmv hd child s hchild hsc]
  by_cases hb : min (min (iv s) ⊤) beta ≤ alpha
  · rw [if_pos hb]
    exact isFin_min_iv _ _ (Or.inl rfl)
  · rw [if_neg hb]
    exact abMinLoop_isFin _ _ _ _ _ _ _ _ _ (isFin_min_iv _ _ (Or.inl rfl))

theorem mmMaxLoop_bot_isFin (mv : Nat) (rest : List Nat) (g : Mancala)
    (depth : Nat) (player : Nat)
    (hmv : ∀ m ∈ mv :: rest, m ∈ legal_moves g) (hd : 0 < depth) :
    isFin (mmMaxLoop (mv :: rest) g depth player ⊥ hmv hd) := by
  rw [mmMaxLoop_cons mv rest g depth player ⊥ hmv hd _ _ rfl rfl]
  exact mmMaxLoop_isFin _ _ _ _ _ _ _ (isFin_max_iv _ _ (Or.inl rfl))

theorem mmMinLoop_top_isFin (mv : Nat) (rest : List Nat) (g : Mancala)
    (depth : Nat) (player : Nat)
    (hmv : ∀ m ∈ mv :: rest, m ∈ legal_moves g) (hd : 0 < depth) :
    isFin (mmMinLoop (mv :: rest) g depth player ⊤ hmv hd) := by
  rw [mmMinLoop_cons mv rest g depth player ⊤ hmv hd _ _ rfl rfl]
  exact mmMinLoop_isFin _ _ _ _ _ _ _ (isFin_min_iv _ _ (Or.inl rfl))

theorem abMaxLoop_spec (N : Nat)
    (IH : ∀ (g : Mancala) (depth : Nat), depth + pitSumG g ≤ N →
      ∀ (alpha beta : ExtInt) (maxi : Bool) (player : Nat), alpha < beta →
        ABapprox (iv (alpha_beta g depth alpha beta maxi player))
          (iv (minimax g depth maxi player)) alpha beta) :
    ∀ (moves : List Nat) (g : Mancala) (depth : Nat)
      (hmv : ∀ m ∈ moves, m ∈ legal_moves g) (hd : 0 < depth),
      depth + pitSumG g ≤ N + 1 →
      ∀ (alpha beta value : ExtInt) (player : Nat),
        alpha < beta → value ≤ alpha →
        value ≤ abMaxLoop moves g depth alpha beta player value hmv hd
          ∧ ABapprox (abMaxLoop moves g depth alpha beta player value hmv hd)
              (mmMaxLoop moves g depth player value hmv hd) alpha beta := by
  intro moves
  induction moves with
  | nil =>
    intro g depth hmv hd hN alpha beta value player hab hva
    rw [abMaxLoop_nil, mmMaxLoop_nil]
    exact ⟨le_refl _, fun _ => le_refl _, fun _ _ => rfl, fun _ => le_refl _⟩
  | cons mv rest ih =>
    intro g depth hmv hd hN alpha beta value player hab hva
    obtain ⟨child, hchild⟩ : ∃ c, c = ((make_move g mv).get
        (make_move_isSome g mv (hmv mv (List.mem_cons_self mv rest)))).1 := ⟨_, rfl⟩
    obtain ⟨s, hsc⟩ : ∃ x, x = alpha_beta child
        (if child.current_player = g.current_player then depth else depth - 1)
        alpha beta (child.current_player == player) player := ⟨_, rfl⟩
    obtain ⟨sm, hsm⟩ : ∃ x, x = minimax child
        (if child.current_player = g.current_player then depth else depth - 1)
        (child.current_player == player) player := ⟨_, rfl⟩
    have hmeas := make_move_get_measure g mv
        (make_move_isSome g mv (hmv mv (List.mem_cons_self mv rest))) depth hd
    rw [← hchild] at hmeas
    have hNc : (if child.current_player = g.current_player then depth else depth - 1)
        + pitSumG child ≤ N := by omega
    have habs : ABapprox (iv s) (iv sm) alpha beta := by
      rw [hsc, hsm]
      exact IH child _ hNc alpha beta _ player hab
    rw [abMaxLoop_cons mv rest g depth alpha beta player value hmv hd child s hchild hsc]
    rw [mmMaxLoop_cons mv rest g depth player value hmv hd child sm hchild hsm]
    obtain ⟨v2, hv2⟩ : ∃ x, x = max value (iv s) := ⟨_, rfl⟩
    obtain ⟨w2, hw2⟩ : ∃ x, x = max value (iv sm) := ⟨_, rfl⟩
    rw [← hv2, ← hw2]
    obtain ⟨a2, ha2⟩ : ∃ x, x = max alpha v2 := ⟨_, rfl⟩
    rw [← ha2]
    obtain ⟨S, hS⟩ : ∃ x, x = mmMaxLoop rest g depth player ⊥
        (fun m hm => hmv m (List.mem_cons_of_mem mv hm)) hd := ⟨_, rfl⟩
    have hdecm : mmMaxLoop rest g depth player w2
        (fun m hm => hmv m (List.mem_cons_of_mem mv hm)) hd = max w2 S := by
      rw [mmMaxLoop_decomp, ← hS]
    have hvv2 : value ≤ v2 := hv2 ▸ le_max_left _ _
    have hsv2 : iv s ≤ v2 := hv2 ▸ le_max_right _ _
    have hv2a2 : v2 ≤ a2 := ha2 ▸ le_max_right _ _
    by_cases hbreak : beta ≤ a2
    · rw [if_pos hbreak]
      have hv2a : alpha < v2 := by
        by_contra hle
        push_neg at hle
        have he : a2 = alpha := by rw [ha2]; exact max_eq_left hle
        rw [he] at hbreak
        exact absurd hab (not_lt_of_le hbreak)
      have ha2v : a2 = v2 := by
        rw [ha2]
        exact max_eq_right (le_of_lt hv2a)
      have hbv2 : beta ≤ v2 := ha2v ▸ hbreak
      have hv2s : v2 = iv s := by
        rcases max_cases value (iv s) with ⟨h2, _⟩ | ⟨h2, _⟩
        · rw [hv2, h2] at hv2a
          exact absurd (lt_of_le_of_lt hva hv2a) (lt_irrefl _)
        · rw [hv2, h2]
      have hss : iv s ≤ iv sm := habs.2.2 (by rw [← hv2s]; exact hbv2)
      refine ⟨hvv2, ?_, ?_, ?_⟩
      · intro hc
        exact absurd hc (not_le_of_lt hv2a)
      · intro _ hc
        exact absurd hbv2 (not_le_of_lt hc)
      · intro _
        rw [hdecm]
        calc v2 = iv s := hv2s
          _ ≤ iv sm := hss
          _ ≤ w2 := hw2 ▸ le_max_right _ _
          _ ≤ max w2 S := le_max_left _ _
    · rw [if_neg hbreak]
      push_neg at hbreak
      have hrec := ih g depth (fun m hm => hmv m (List.mem_cons_of_mem mv hm)) hd hN
          a2 beta v2 player hbreak hv2a2
      have hdec2 : mmMaxLoop rest g depth player v2
          (fun m hm => hmv m (List.mem_cons_of_mem mv hm)) hd = max v2 S := by
        rw [mmMaxLoop_decomp, ← hS]
      rw [hdec2] at hrec
      refine ⟨le_trans hvv2 hrec.1, ?_, ?_, ?_⟩
      · intro hc
        have hca2 : abMaxLoop rest g depth a2 beta player v2
            (fun m hm => hmv m (List.mem_cons_of_mem mv hm)) hd ≤ a2 :=
          le_trans hc (ha2 ▸ le_max_left _ _)
        have h1 := hrec.2.1 hca2
        have hsle : iv s ≤ abMaxLoop rest g depth a2 beta player v2
            (fun m hm => hmv m (List.mem_cons_of_mem mv hm)) hd :=
          le_trans hsv2 (le_trans (le_max_left _ _) h1)
        have hsa : iv s ≤ alpha := le_trans hsle hc
        have hsmle : iv sm ≤ iv s := habs.1 hsa
        rw [hdecm]
        apply max_le
        · rw [hw2]
          apply max_le
          · exact le_trans hvv2 (le_trans (le_max_left _ _) h1)
          · exact le_trans hsmle hsle
        · exact le_trans (le_max_right _ _) h1
      · intro h_alpha_lt h_lt_beta
        by_cases hra2 : a2 < abMaxLoop rest g depth a2 beta player v2
            (fun m hm => hmv m (List.mem_cons_of_mem mv hm)) hd
        · have heq := hrec.2.2.1 hra2 h_lt_beta
          have hv2r : v2 < abMaxLoop rest g depth a2 beta player v2
              (fun m hm => hmv m (List.mem_cons_of_mem mv hm)) hd :=
            lt_of_le_of_lt hv2a2 hra2
          have hrS : abMaxLoop rest g depth a2 beta player v2
              (fun m hm => hmv m (List.mem_cons_of_mem mv hm)) hd = S := by
            rcases max_cases v2 S with ⟨h2, _⟩ | ⟨h2, _⟩
            · rw [heq, h2] at hv2r
              exact absurd hv2r (lt_irrefl _)
            · rw [heq, h2]
          have hsmr : iv sm ≤ abMaxLoop rest g depth a2 beta player v2
              (fun m hm => hmv m (List.mem_cons_of_mem mv hm)) hd := by
            by_cases hsa : iv s ≤ alpha
            · exact le_trans (habs.1 hsa) (le_trans hsa (le_of_lt h_alpha_lt))
            · push_neg at hsa
              have hsb : iv s < beta := lt_of_le_of_lt (le_trans hsv2 hv2a2) hbreak
              have hse := habs.2.1 hsa hsb
              rw [← hse]
              exact le_of_lt (lt_of_le_of_lt (le_trans hsv2 hv2a2) hra2)
          rw [hdecm, hrS]
          symm
          apply max_eq_right
          rw [hw2]
          apply max_le
          · exact le_trans hva (le_trans (le_of_lt h_alpha_lt) (le_of_eq hrS))
          · exact le_trans hsmr (le_of_eq hrS)
        · push_neg at hra2
          rcases max_cases alpha v2 with ⟨he, _⟩ | ⟨he, hlt⟩
          · have ha2a : a2 = alpha := by rw [ha2, he]
            exact absurd h_alpha_lt (not_lt_of_le (le_trans hra2 (le_of_eq ha2a)))
          · have hea2 : a2 = v2 := by rw [ha2, he]
            have h1 := hrec.2.1 hra2
            have hv2le : v2 ≤ abMaxLoop rest g depth a2 beta player v2
                (fun m hm => hmv m (List.mem_cons_of_mem mv hm)) hd :=
              le_trans (le_max_left _ _) h1
            have hrv2 : abMaxLoop rest g depth a2 beta player v2
                (fun m hm => hmv m (List.mem_cons_of_mem mv hm)) hd = v2 :=
              le_antisymm (hea2 ▸ hra2) hv2le
            have hv2s : v2 = iv s := by
              rcases max_cases value (iv s) with ⟨h2, _⟩ | ⟨h2, _⟩
              · rw [hv2, h2] at hlt
                exact absurd (lt_of_le_of_lt hva hlt) (lt_irrefl _)
              · rw [hv2, h2]
            have hsa : alpha < iv s := hv2s ▸ hlt
            have hsb : iv s < beta := by
              rw [← hv2s, ← hrv2]
              exact h_lt_beta
            have hssm := habs.2.1 hsa hsb
            have hSr : S ≤ v2 := le_trans (le_max_right _ _) (by rw [← hrv2]; exact h1)
            have hw2sm : w2 = iv sm := by
              rw [hw2]
              exact max_eq_right (le_trans hva (le_of_lt (hssm ▸ hsa)))
            rw [hdecm, hrv2, hv2s, hssm, hw2sm]
            symm
            refine max_eq_left ?_
            calc S ≤ v2 := hSr
              _ = iv sm := by rw [hv2s, hssm]
      · intro hc
        have hra2 : a2 < abMaxLoop rest g depth a2 beta player v2
            (fun m hm => hmv m (List.mem_cons_of_mem mv hm)) hd :=
          lt_of_lt_of_le hbreak hc
        have h3 := hrec.2.2.2 hc
        rw [hdecm]
        rcases max_cases v2 S with ⟨he, _⟩ | ⟨he, _⟩
        · have hle : abMaxLoop rest g depth a2 beta player v2
              (fun m hm => hmv m (List.mem_cons_of_mem mv hm)) hd ≤ a2 :=
            le_trans (le_trans h3 (le_of_eq he)) hv2a2
          exact absurd hra2 (not_lt_of_le hle)
        · refine le_trans (le_trans h3 (le_of_eq he)) (le_max_right _ _)

theorem abMinLoop_spec (N : Nat)
    (IH : ∀ (g : Mancala) (depth : Nat), depth + pitSumG g ≤ N →
      ∀ (alpha beta : ExtInt) (maxi : Bool) (player : Nat), alpha < beta →
        ABapprox (iv (alpha_beta g depth alpha beta maxi player))
          (iv (minimax g depth maxi player)) alpha beta) :
    ∀ (moves : List Nat) (g : Mancala) (depth : Nat)
      (hmv : ∀ m ∈ moves, m ∈ legal_moves g) (hd : 0 < depth),
      depth + pitSumG g ≤ N + 1 →
      ∀ (alpha beta value : ExtInt) (player : Nat),
        alpha < beta → beta ≤ value →
        abMinLoop moves g depth alpha beta player value hmv hd ≤ value
          ∧ ABapprox (abMinLoop moves g depth alpha beta player value hmv hd)
              (mmMinLoop moves g depth player value hmv hd) alpha beta := by
  intro moves
  induction moves with
  | nil =>
    intro g depth hmv hd hN alpha beta value player hab hbv
    rw [abMinLoop_nil, mmMinLoop_nil]
    exact ⟨le_refl _, fun _ => le_refl _, fun _ _ => rfl, fun _ => le_refl _⟩
  | cons mv rest ih =>
    intro g depth hmv hd hN alpha beta value player hab hbv
    obtain ⟨child, hchild⟩ : ∃ c, c = ((make_move g mv).get
        (make_move_isSome g mv (hmv mv (List.mem_cons_self mv rest)))).1 := ⟨_, rfl⟩
    obtain ⟨s, hsc⟩ : ∃ x, x = alpha_beta child
        (if child.current_player = g.current_player then depth else depth - 1)
        alpha beta (child.current_player == player) player := ⟨_, rfl⟩
    obtain ⟨sm, hsm⟩ : ∃ x, x = minimax child
        (if child.current_player = g.current_player then depth else depth - 1)
        (child.current_player == player) player := ⟨_, rfl⟩
    have hmeas := make_move_get_measure g mv
        (make_move_isSome g mv (hmv mv (List.mem_cons_self mv rest))) depth hd
    rw [← hchild] at hmeas
    have hNc : (if child.current_player = g.current_player then depth else depth - 1)
        + pitSumG child ≤ N := by omega
    have habs : ABapprox (iv s) (iv sm) alpha beta := by
      rw [hsc, hsm]
      exact IH child _ hNc alpha beta _ player hab
    rw [abMinLoop_cons mv rest g depth alpha beta player value hmv hd child s hchild hsc]
    rw [mmMinLoop_cons mv rest g depth player value hmv hd child sm hchild hsm]
    obtain ⟨v2, hv2⟩ : ∃ x, x = min (iv s) value := ⟨_, rfl⟩
    obtain ⟨w2, hw2⟩ : ∃ x, x = min (iv sm) value := ⟨_, rfl⟩
    rw [← hv2, ← hw2]
    obtain ⟨b2, hb2⟩ : ∃ x, x = min v2 beta := ⟨_, rfl⟩
    rw [← hb2]
    obtain ⟨S, hS⟩ : ∃ x, x = mmMinLoop rest g depth player ⊤
        (fun m hm => hmv m (List.mem_cons_of_mem mv hm)) hd := ⟨_, rfl⟩
    have hdecm : mmMinLoop rest g depth player w2
        (fun m hm => hmv m (List.mem_cons_of_mem mv hm)) hd = min w2 S := by
      rw [mmMinLoop_decomp, ← hS]
    have hvv2 : v2 ≤ value := hv2 ▸ min_le_right _ _
    have hsv2 : v2 ≤ iv s := hv2 ▸ min_le_left _ _
    have hb2v2 : b2 ≤ v2 := hb2 ▸ min_le_left _ _
    have hb2beta : b2 ≤ beta := hb2 ▸ min_le_right _ _
    by_cases hbreak : b2 ≤ alpha
    · rw [if_pos hbreak]
      have hv2b : v2 < beta := by
        by_contra hle
        push_neg at hle
        have he : b2 = beta := by
          rw [hb2]
          exact min_eq_right hle
        rw [he] at hbreak
        exact absurd hab (not_lt_of_le hbreak)
      have hb2e : b2 = v2 := by
        rw [hb2]
        exact min_eq_left (le_of_lt hv2b)
      have hv2a : v2 ≤ alpha := hb2e ▸ hbreak
      have hv2s : v2 = iv s := by
        rcases min_cases (iv s) value with ⟨h2, _⟩ | ⟨h2, _⟩
        · rw [hv2, h2]
        · rw [hv2, h2] at hv2b
          exact absurd (lt_of_le_of_lt hbv hv2b) (lt_irrefl _)
      have hss : iv sm ≤ iv s := habs.1 (by rw [← hv2s]; exact hv2a)
      refine ⟨hvv2, ?_, ?_, ?_⟩
      · intro _
        rw [hdecm]
        calc min w2 S ≤ w2 := min_le_left _ _
          _ ≤ iv sm := hw2 ▸ min_le_left _ _
          _ ≤ iv s := hss
          _ = v2 := hv2s.symm
      · intro hc _
        exact absurd hc (not_lt_of_le hv2a)
      · intro hc
        exact absurd (lt_of_le_of_lt hc hv2b) (lt_irrefl _)
    · rw [if_neg hbreak]
      push_neg at hbreak
      have hrec := ih g depth (fun m hm => hmv m (List.mem_cons_of_mem mv hm)) hd hN
          alpha b2 v2 player hbreak hb2v2
      have hdec2 : mmMinLoop rest g depth player v2
          (fun m hm => hmv m (List.mem_cons_of_mem mv hm)) hd = min v2 S := by
        rw [mmMinLoop_decomp, ← hS]
      rw [hdec2] at hrec
      refine ⟨le_trans hrec.1 hvv2, ?_, ?_, ?_⟩
      · intro hc
        have h3 := hrec.2.1 hc
        rw [hdecm]
        rcases min_cases v2 S with ⟨he, _⟩ | ⟨he, _⟩
        · have hle : v2 ≤ abMinLoop rest g depth alpha b2 player v2
              (fun m hm => hmv m (List.mem_cons_of_mem mv hm)) hd :=
            le_trans (le_of_eq he.symm) h3
          have hb2r : b2 ≤ abMinLoop rest g depth alpha b2 player v2
              (fun m hm => hmv m (List.mem_cons_of_mem mv hm)) hd :=
            le_trans hb2v2 hle
          exact absurd (lt_of_le_of_lt hb2r (lt_of_le_of_lt hc hbreak)) (lt_irrefl _)
        · exact le_trans (min_le_right w2 S) (le_trans (le_of_eq he.symm) h3)
      · intro h_alpha_lt h_lt_beta
        by_cases hrb2 : abMinLoop rest g depth alpha b2 player v2
            (fun m hm => hmv m (List.mem_cons_of_mem mv hm)) hd < b2
        · have heq := hrec.2.2.1 h_alpha_lt hrb2
          have hv2r : abMinLoop rest g depth alpha b2 player v2
              (fun m hm => hmv m (List.mem_cons_of_mem mv hm)) hd < v2 :=
            lt_of_lt_of_le hrb2 hb2v2
          have hrS : abMinLoop rest g depth alpha b2 player v2
              (fun m hm => hmv m (List.mem_cons_of_mem mv hm)) hd = S := by
            rcases min_cases v2 S with ⟨h2, _⟩ | ⟨h2, _⟩
            · rw [heq, h2] at hv2r
              exact absurd hv2r (lt_irrefl _)
            · rw [heq, h2]
          have hsmr : abMinLoop rest g depth alpha b2 player v2
              (fun m hm => hmv m (List.mem_cons_of_mem mv hm)) hd ≤ iv sm := by
            by_cases hsb : beta ≤ iv s
            · exact le_trans (le_of_lt (lt_of_lt_of_le hv2r (le_trans hsv2 (habs.2.2 hsb)))) (le_refl _)
            · push_neg at hsb
              have hsa : alpha < iv s := lt_of_lt_of_le hbreak (le_trans hb2v2 hsv2)
              have hse := habs.2.1 hsa hsb
              rw [← hse]
              exact le_of_lt (lt_of_lt_of_le hv2r hsv2)
          rw [hdecm, hrS]
          symm
          refine min_eq_right ?_
          rw [hw2]
          refine le_min ?_ ?_
          · exact le_trans (le_of_eq hrS.symm) hsmr
          · exact le_trans (le_of_eq hrS.symm) (le_of_lt (lt_of_lt_of_le hv2r hvv2))
        · push_neg at hrb2
          rcases min_cases v2 beta with ⟨he, _⟩ | ⟨he, _⟩
          · have hb2e : b2 = v2 := by rw [hb2, he]
            have h1 := hrec.2.2.2 hrb2
            have hv2ge : abMinLoop rest g depth alpha b2 player v2
                (fun m hm => hmv m (List.mem_cons_of_mem mv hm)) hd ≤ v2 :=
              le_trans h1 (min_le_left _ _)
            have hrv2 : abMinLoop rest g depth alpha b2 player v2
                (fun m hm => hmv m (List.mem_cons_of_mem mv hm)) hd = v2 :=
              le_antisymm hv2ge (hb2e ▸ hrb2)
            have hv2s : v2 = iv s := by
              rcases min_cases (iv s) value with ⟨h2, _⟩ | ⟨h2, _⟩
              · rw [hv2, h2]
              · exfalso
                have hvv : v2 = value := by rw [hv2, h2]
                have hlt : v2 < beta := hrv2 ▸ h_lt_beta
                rw [hvv] at hlt
                exact absurd (lt_of_le_of_lt hbv hlt) (lt_irrefl _)
            have hsb : iv s < beta := by
              rw [← hv2s, ← hrv2]
              exact h_lt_beta
            have hsa : alpha < iv s := by
              rw [← hv2s, ← hrv2]
              exact h_alpha_lt
            have hssm := habs.2.1 hsa hsb
            have hSr : v2 ≤ S := by
              have := le_trans h1 (min_le_right v2 S)
              rw [hrv2] at this
              exact this
            have hw2sm : w2 = iv sm := by
              rw [hw2]
              refine min_eq_left ?_
              have : iv sm < beta := by
                rw [← hssm]
                exact hsb
              exact le_of_lt (lt_of_lt_of_le this hbv)
            rw [hdecm, hrv2, hv2s, hssm, hw2sm]
            symm
            refine min_eq_left ?_
            calc iv sm = v2 := by rw [hv2s, hssm]
              _ ≤ S := hSr
          · exfalso
            have hb2e : b2 = beta := by rw [hb2, he]
            have hble := le_trans (le_of_eq hb2e.symm) hrb2
            exact absurd (lt_of_le_of_lt hble h_lt_beta) (lt_irrefl _)
      · intro hc
        have hcb2 : b2 ≤ abMinLoop rest g depth alpha b2 player v2
            (fun m hm => hmv m (List.mem_cons_of_mem mv hm)) hd :=
          le_trans hb2beta hc
        have h1 := hrec.2.2.2 hcb2
        have hsle : abMinLoop rest g depth alpha b2 player v2
            (fun m hm => hmv m (List.mem_cons_of_mem mv hm)) hd ≤ iv s :=
          le_trans h1 (le_trans (min_le_left _ _) hsv2)
        have hsb : beta ≤ iv s := le_trans hc hsle
        have hsmge : iv s ≤ iv sm := habs.2.2 hsb
        rw [hdecm]
        refine le_min ?_ ?_
        · rw [hw2]
          refine le_min ?_ ?_
          · exact le_trans hsle hsmge
          · exact le_trans h1 (le_trans (min_le_left _ _) hvv2)
        · exact le_trans h1 (min_le_right _ _)

theorem alpha_beta_leaf (g : Mancala) (depth : Nat) (a b : ExtInt) (maxi : Bool)
    (pl : Nat)
    (h : (decide (depth = 0) || (check_game_over g).1) = true ∨ legal_moves g = []) :
    alpha_beta g depth a b maxi pl = evaluate g pl := by
  unfold alpha_beta
  by_cases h0 : (decide (depth = 0) || (check_game_over g).1) = true
  · rw [dif_pos h0]
  · rcases h with h | h
    · exact absurd h h0
    · rw [dif_neg h0, if_pos h]

theorem minimax_leaf (g : Mancala) (depth : Nat) (maxi : Bool) (pl : Nat)
    (h : (decide (depth = 0) || (check_game_over g).1) = true ∨ legal_moves g = []) :
    minimax g depth maxi pl = evaluate g pl := by
  unfold minimax
  by_cases h0 : (decide (depth = 0) || (check_game_over g).1) = true
  · rw [dif_pos h0]
  · rcases h with h | h
    · exact absurd h h0
    · rw [dif_neg h0, if_pos h]

theorem alpha_beta_maxNode (g : Mancala) (depth : Nat) (a b : ExtInt) (pl : Nat)
    (h0 : ¬(decide (depth = 0) || (check_game_over g).1) = true)
    (hl : ¬legal_moves g = []) (hd : 0 < depth) :
    alpha_beta g depth a b true pl
      = toInt (abMaxLoop (legal_moves g) g depth a b pl ⊥ (fun _ hm => hm) hd) := by
  unfold alpha_beta
  rw [dif_neg h0, if_neg hl, if_pos rfl]

theorem alpha_beta_minNode (g : Mancala) (depth : Nat) (a b : ExtInt) (pl : Nat)
    (h0 : ¬(decide (depth = 0) || (check_game_over g).1) = true)
    (hl : ¬legal_moves g = []) (hd : 0 < depth) :
    alpha_beta g depth a b false pl
      = toInt (abMinLoop (legal_moves g) g depth a b pl ⊤ (fun _ hm => hm) hd) := by
  unfold alpha_beta
  rw [dif_neg h0, if_neg hl, if_neg Bool.false_ne_true]

theorem minimax_maxNode (g : Mancala) (depth : Nat) (pl : Nat)
    (h0 : ¬(decide (depth = 0) || (check_game_over g).1) = true)
    (hl : ¬legal_moves g = []) (hd : 0 < depth) :
    minimax g depth true pl
      = toInt (mmMaxLoop (legal_moves g) g depth pl ⊥ (fun _ hm => hm) hd) := by
  unfold minimax
  rw [dif_neg h0, if_neg hl, if_pos rfl]

theorem minimax_minNode (g : Mancala) (depth : Nat) (pl : Nat)
    (h0 : ¬(decide (depth = 0) || (check_game_over g).1) = true)
    (hl : ¬legal_moves g = []) (hd : 0 < depth) :
    minimax g depth false pl
      = toInt (mmMinLoop (legal_moves g) g depth pl ⊤ (fun _ hm => hm) hd) := by
  unfold minimax
  rw [dif_neg h0, if_neg hl, if_neg Bool.false_ne_true]

theorem abMaxLoop_isFin_of_ne (moves : List Nat) (g : Mancala) (depth : Nat)
    (alpha beta : ExtInt) (player : Nat) (hmv : ∀ m ∈ moves, m ∈ legal_moves g)
    (hd : 0 < depth) (hne : moves ≠ []) :
    isFin (abMaxLoop moves g depth alpha beta player ⊥ hmv hd) := by
  cases moves with
  | nil => exact absurd rfl hne
  | cons mv rest => exact abMaxLoop_bot_isFin mv rest g depth alpha beta player hmv hd

theorem abMinLoop_isFin_of_ne (moves : List Nat) (g : Mancala) (depth : Nat)
    (alpha beta : ExtInt) (player : Nat) (hmv : ∀ m ∈ moves, m ∈ legal_moves g)
    (hd : 0 < depth) (hne : moves ≠ []) :
    isFin (abMinLoop moves g depth alpha beta player ⊤ hmv hd) := by
  cases moves with
  | nil => exact absurd rfl hne
  | cons mv rest => exact abMinLoop_top_isFin mv rest g depth alpha beta player hmv hd

theorem mmMaxLoop_isFin_of_ne (moves : List Nat) (g : Mancala) (depth : Nat)
    (player : Nat) (hmv : ∀ m ∈ moves, m ∈ legal_moves g)
    (hd : 0 < depth) (hne : moves ≠ []) :
    isFin (mmMaxLoop moves g depth player ⊥ hmv hd) := by
  cases moves with
  | nil => exact absurd rfl hne
  | cons mv rest => exact mmMaxLoop_bot_isFin mv rest g depth player hmv hd

theorem mmMinLoop_isFin_of_ne (moves : List Nat) (g : Mancala) (depth : Nat)
    (player : Nat) (hmv : ∀ m ∈ moves, m ∈ legal_moves g)
    (hd : 0 < depth) (hne : moves ≠ []) :
    isFin (mmMinLoop moves g depth player ⊤ hmv hd) := by
  cases moves with
  | nil => exact absurd rfl hne
  | cons mv rest => exact mmMinLoop_top_isFin mv rest g depth player hmv hd

theorem ABapprox_refl (x alpha beta : ExtInt) : ABapprox x x alpha beta :=
  ⟨fun _ => le_refl x, fun _ _ => rfl, fun _ => le_refl x⟩

/-- Fail-soft correctness of the pruned search against plain minimax: on any
window `alpha < beta` the pruned value is exact inside the window and a sound
bound outside it.  Strong induction on `depth + pitSumG g`, the same measure
that proves termination. -/
theorem abSpec : ∀ (N : Nat) (g : Mancala) (depth : Nat), depth + pitSumG g ≤ N →
    ∀ (alpha beta : ExtInt) (maxi : Bool) (player : Nat), alpha < beta →
      ABapprox (iv (alpha_beta g depth alpha beta maxi player))
        (iv (minimax g depth maxi player)) alpha beta := by
  intro N
  induction N with
  | zero =>
    intro g depth hN alpha beta maxi player hab
    have hd0 : depth = 0 := by omega
    subst hd0
    rw [alpha_beta_leaf g 0 alpha beta maxi player (Or.inl (by simp)),
        minimax_leaf g 0 maxi player (Or.inl (by simp))]
    exact ABapprox_refl _ _ _
  | succ N ihN =>
    intro g depth hN alpha beta maxi player hab
    by_cases h0 : (decide (depth = 0) || (check_game_over g).1) = true
    · rw [alpha_beta_leaf g depth alpha beta maxi player (Or.inl h0),
          minimax_leaf g depth maxi player (Or.inl h0)]
      exact ABapprox_refl _ _ _
    · by_cases hl : legal_moves g = []
      · rw [alpha_beta_leaf g depth alpha beta maxi player (Or.inr hl),
            minimax_leaf g depth maxi player (Or.inr hl)]
        exact ABapprox_refl _ _ _
      · have hd : 0 < depth := by
          simp only [Bool.or_eq_true, decide_eq_true_eq, not_or] at h0
          exact Nat.pos_of_ne_zero h0.1
        cases maxi with
        | true =>
          rw [alpha_beta_maxNode g depth alpha beta player h0 hl hd,
              minimax_maxNode g depth player h0 hl hd]
          have hspec := (abMaxLoop_spec N ihN (legal_moves g) g depth
              (fun _ hm => hm) hd hN alpha beta ⊥ player hab bot_le).2
          rw [iv_toInt _ (abMaxLoop_isFin_of_ne (legal_moves g) g depth alpha beta
                player (fun _ hm => hm) hd hl),
              iv_toInt _ (mmMaxLoop_isFin_of_ne (legal_moves g) g depth
                player (fun _ hm => hm) hd hl)]
          exact hspec
        | false =>
          rw [alpha_beta_minNode g depth alpha beta player h0 hl hd,
              minimax_minNode g depth player h0 hl hd]
          have hspec := (abMinLoop_spec N ihN (legal_moves g) g depth
              (fun _ hm => hm) hd hN alpha beta ⊤ player hab le_top).2
          rw [iv_toInt _ (abMinLoop_isFin_of_ne (legal_moves g) g depth alpha beta
                player (fun _ hm => hm) hd hl),
              iv_toInt _ (mmMinLoop_isFin_of_ne (legal_moves g) g depth
                player (fun _ hm => hm) hd hl)]
          exact hspec

/-- C7: for every state, depth, maximizing flag and evaluating player, the
pruned search `alpha_beta` called on the full window (alpha = -infinity,
beta = +infinity) returns exactly the value of `minimax`, the identical
recursion with every piece of alpha-beta cutoff bookkeeping removed: pruning
never changes the returned value. -/
theorem C7_pruning_exact (g : Mancala) (depth : Nat) (maxi : Bool) (player : Nat) :
    alpha_beta g depth ⊥ ⊤ maxi player = minimax g depth maxi player := by
  have hbt : (⊥ : ExtInt) < ⊤ := lt_of_lt_of_le (bot_lt_iv 0) le_top
  have h := abSpec (depth + pitSumG g) g depth (le_refl _) ⊥ ⊤ maxi player hbt
  exact iv_inj _ _ (h.2.1 (bot_lt_iv _) (iv_lt_top _))
